import Mathlib

/-!
Verification of the TailorCV asynchronous indexing pipeline.

This file gives a shallow embedding, in Lean 4, of the core of the
TailorCV repository: the content-addressed CV store
(`storing_service/app/service.py`), its event publication module
(`storing_service/app/events.py`), the RabbitMQ consumer callback
(`vector_service/app/mq_consumer.py`), the chunking and embedding code
(`vector_service/app/embedder.py`), and the chunk → embed → upsert
pipeline of `scripts/ingest_dataset.py`.

Python values flowing through the chunker are modelled by the type `Jv`
(JSON-like values: null, booleans, integers, strings, lists, dicts).
Python dicts are association lists in insertion order.  Code that can
raise a Python exception (`TypeError` from iterating a non-iterable or
joining non-strings, `AttributeError` from calling `.strip`/`.get` on the
wrong type) is modelled with `Except String`.  The external embedding
model is a parameter `f : String → List Int`; the external vector
backend's upsert is modelled from the spec as insert-or-replace keyed by
vector id.
-/

set_option maxHeartbeats 1000000

/-- JSON-like Python values: `None`, booleans, integers, strings, lists and
dicts (association lists in insertion order). -/
inductive Jv where
  | jnull : Jv
  | jbool : Bool → Jv
  | jnum : Int → Jv
  | jstr : String → Jv
  | jlist : List Jv → Jv
  | jdict : List (String × Jv) → Jv

/-- Python truthiness: `None`, `False`, `0`, `""`, `[]` and `{}` are falsy. -/
def truthy : Jv → Bool
  | .jnull => false
  | .jbool b => b
  | .jnum n => if n = 0 then false else true
  | .jstr s => if s = "" then false else true
  | .jlist [] => false
  | .jlist (_ :: _) => true
  | .jdict [] => false
  | .jdict (_ :: _) => true

/-- Characters stripped by Python `str.strip()`. -/
def isPyWs (c : Char) : Bool :=
  c = ' ' || c = '\t' || c = '\n' || c = '\r' || c = '\x0b' || c = '\x0c'

/-- Python `str.strip()`: remove leading and trailing whitespace. -/
def pyStrip (s : String) : String :=
  String.mk (((s.data.dropWhile isPyWs).reverse.dropWhile isPyWs).reverse)

/-- Python `sep.join(parts)` over a list of strings. -/
def pyJoinList (sep : String) : List String → String
  | [] => ""
  | [x] => x
  | x :: y :: xs => x ++ sep ++ pyJoinList sep (y :: xs)

/-- Decimal digit characters. -/
def digitChar : Nat → Char
  | 0 => '0' | 1 => '1' | 2 => '2' | 3 => '3' | 4 => '4'
  | 5 => '5' | 6 => '6' | 7 => '7' | 8 => '8' | _ => '9'

/-- Decimal rendering of a natural number, accumulator style.  The fuel is
an upper bound on the number of digits. -/
def natReprCore : Nat → Nat → List Char → List Char
  | 0, _, acc => acc
  | fuel + 1, n, acc =>
    let d := digitChar (n % 10)
    if n / 10 = 0 then d :: acc else natReprCore fuel (n / 10) (d :: acc)

/-- Python `str(n)` for a natural number. -/
def natRepr (n : Nat) : String := String.mk (natReprCore (n + 1) n [])

/-- Python `str(i)` for an integer. -/
def intRepr (i : Int) : String :=
  if i < 0 then "-" ++ natRepr i.natAbs else natRepr i.natAbs

mutual
/-- Python `repr` of a value (string escaping inside containers is not
modelled; no claim depends on it). -/
def pyRepr : Jv → String
  | .jnull => "None"
  | .jbool b => if b then "True" else "False"
  | .jnum n => intRepr n
  | .jstr s => "'" ++ s ++ "'"
  | .jlist xs => "[" ++ pyJoinList ", " (pyReprList xs) ++ "]"
  | .jdict kvs => "\x7b" ++ pyJoinList ", " (pyReprDict kvs) ++ "\x7d"

/-- Helper of `pyRepr` for list elements. -/
def pyReprList : List Jv → List String
  | [] => []
  | x :: xs => pyRepr x :: pyReprList xs

/-- Helper of `pyRepr` for dict entries. -/
def pyReprDict : List (String × Jv) → List String
  | [] => []
  | (k, v) :: xs => ("'" ++ k ++ "': " ++ pyRepr v) :: pyReprDict xs
end

/-- Python `str()` of a value. -/
def pyStr : Jv → String
  | .jstr s => s
  | v => pyRepr v

/-- Python `a or b`. -/
def pyOr (a b : Jv) : Jv := if truthy a then a else b

/-- First-match lookup in a Python dict (dicts have unique keys). -/
def dictGet : List (String × Jv) → String → Option Jv
  | [], _ => none
  | (k', v) :: t, k => if k' = k then some v else dictGet t k

/-- Python `d.get(k, default)`. -/
def dictGetD (d : List (String × Jv)) (k : String) (dflt : Jv) : Jv :=
  (dictGet d k).getD dflt

/-- Python `d[k] = v`: replace in place if the key exists, else append. -/
def dictSet : List (String × Jv) → String → Jv → List (String × Jv)
  | [], k, v => [(k, v)]
  | (k', v') :: t, k, v =>
    if k' = k then (k, v) :: t else (k', v') :: dictSet t k v

/-- Python `base.update(upd)` / `{**base, **upd}`. -/
def dictUpdate (base upd : List (String × Jv)) : List (String × Jv) :=
  upd.foldl (fun acc kv => dictSet acc kv.1 kv.2) base

/-- Result of Python code that may raise an exception. -/
abbrev PyResult (α : Type) := Except String α

/-- Python iteration over a value: lists yield their elements, strings yield
their characters, dicts yield their keys; anything else raises `TypeError`. -/
def pyIter : Jv → PyResult (List Jv)
  | .jlist xs => .ok xs
  | .jstr s => .ok (s.data.map (fun c => .jstr (String.mk [c])))
  | .jdict kvs => .ok (kvs.map (fun kv => .jstr kv.1))
  | _ => .error "TypeError: object is not iterable"

/-- Check that every joined item is a string, as Python `str.join` does,
raising `TypeError` at the first non-string. -/
def strListOfJv : List Jv → PyResult (List String)
  | [] => .ok []
  | .jstr s :: rest => do
    let tail ← strListOfJv rest
    .ok (s :: tail)
  | _ :: _ => .error "TypeError: sequence item: expected str instance"

/-- Python `sep.join(xs)` over arbitrary values: raises `TypeError` unless
every element is a string. -/
def pyJoinStrs (sep : String) (xs : List Jv) : PyResult String := do
  let strs ← strListOfJv xs
  .ok (pyJoinList sep strs)

/-- Interpret a value as a Python dict, raising `AttributeError` otherwise
(models calling `.get` on a non-dict). -/
def asDict : Jv → PyResult (List (String × Jv))
  | .jdict d => .ok d
  | _ => .error "AttributeError: object has no attribute get"

/-! ### SHA-256 (`hashlib.sha256(...).hexdigest()` over UTF-8 bytes)

Machine words are `Nat` reduced modulo `2 ^ 32`; bytes are `Nat < 256`. -/

/-- Word size modulus. -/
def m32 : Nat := 4294967296

/-- Right rotation of a 32-bit word. -/
def rotr32 (x n : Nat) : Nat := x / 2 ^ n + x % 2 ^ n * 2 ^ (32 - n)

/-- Bitwise complement of a 32-bit word. -/
def not32 (x : Nat) : Nat := 4294967295 - x

/-- SHA-256 `Ch` function. -/
def shaCh (e f g : Nat) : Nat := (e &&& f) ^^^ (not32 e &&& g)

/-- SHA-256 `Maj` function. -/
def shaMaj (a b c : Nat) : Nat := (a &&& b) ^^^ (a &&& c) ^^^ (b &&& c)

/-- SHA-256 big sigma 0. -/
def bsig0 (x : Nat) : Nat := rotr32 x 2 ^^^ rotr32 x 13 ^^^ rotr32 x 22

/-- SHA-256 big sigma 1. -/
def bsig1 (x : Nat) : Nat := rotr32 x 6 ^^^ rotr32 x 11 ^^^ rotr32 x 25

/-- SHA-256 small sigma 0. -/
def ssig0 (x : Nat) : Nat := rotr32 x 7 ^^^ rotr32 x 18 ^^^ x / 2 ^ 3

/-- SHA-256 small sigma 1. -/
def ssig1 (x : Nat) : Nat := rotr32 x 17 ^^^ rotr32 x 19 ^^^ x / 2 ^ 10

/-- SHA-256 round constants. -/
def shaK : List Nat :=
  [1116352408, 1899447441, 3049323471, 3921009573,
   961987163, 1508970993, 2453635748, 2870763221,
   3624381080, 310598401, 607225278, 1426881987,
   1925078388, 2162078206, 2614888103, 3248222580,
   3835390401, 4022224774, 264347078, 604807628,
   770255983, 1249150122, 1555081692, 1996064986,
   2554220882, 2821834349, 2952996808, 3210313671,
   3336571891, 3584528711, 113926993, 338241895,
   666307205, 773529912, 1294757372, 1396182291,
   1695183700, 1986661051, 2177026350, 2456956037,
   2730485921, 2820302411, 3259730800, 3345764771,
   3516065817, 3600352804, 4094571909, 275423344,
   430227734, 506948616, 659060556, 883997877,
   958139571, 1322822218, 1537002063, 1747873779,
   1955562222, 2024104815, 2227730452, 2361852424,
   2428436474, 2756734187, 3204031479, 3329325298]

/-- SHA-256 internal state: eight 32-bit words. -/
structure ShaState where
  a : Nat
  b : Nat
  c : Nat
  d : Nat
  e : Nat
  f : Nat
  g : Nat
  h : Nat

/-- SHA-256 initial hash value. -/
def shaInit : ShaState :=
  ⟨1779033703, 3144134277, 1013904242, 2773480762,
   1359893119, 2600822924, 528734635, 1541459225⟩

/-- One SHA-256 compression round for a given `(k, w)` pair. -/
def shaRound (st : ShaState) (kw : Nat × Nat) : ShaState :=
  let t1 := (st.h + bsig1 st.e + shaCh st.e st.f st.g + kw.1 + kw.2) % m32
  let t2 := (bsig0 st.a + shaMaj st.a st.b st.c) % m32
  ⟨(t1 + t2) % m32, st.a, st.b, st.c, (st.d + t1) % m32, st.e, st.f, st.g⟩

/-- Extend a 16-word message block to the 64-word schedule. -/
def extendSchedule : Nat → List Nat → List Nat
  | 0, ws => ws
  | n + 1, ws =>
    let len := ws.length
    let next := (ssig1 (ws.getD (len - 2) 0) + ws.getD (len - 7) 0 +
                 ssig0 (ws.getD (len - 15) 0) + ws.getD (len - 16) 0) % m32
    extendSchedule n (ws ++ [next])

/-- Pack a list of bytes into big-endian 32-bit words (4 bytes per word). -/
def bytesToWords : List Nat → List Nat
  | b0 :: b1 :: b2 :: b3 :: rest =>
    (b0 * 2 ^ 24 + b1 * 2 ^ 16 + b2 * 2 ^ 8 + b3) :: bytesToWords rest
  | _ => []

/-- Big-endian bytes of a number, fixed width. -/
def natToBytesBE : Nat → Nat → List Nat
  | 0, _ => []
  | w + 1, n => n / 2 ^ (8 * w) % 256 :: natToBytesBE w n

/-- Compress a single 64-byte block into the running state. -/
def shaBlock (st : ShaState) (block : List Nat) : ShaState :=
  let ws := extendSchedule 48 (bytesToWords block)
  let r := (shaK.zip ws).foldl shaRound st
  ⟨(st.a + r.a) % m32, (st.b + r.b) % m32, (st.c + r.c) % m32,
   (st.d + r.d) % m32, (st.e + r.e) % m32, (st.f + r.f) % m32,
   (st.g + r.g) % m32, (st.h + r.h) % m32⟩

/-- Split a byte list into 64-byte blocks. -/
def shaBlocks : List Nat → List (List Nat)
  | [] => []
  | b :: rest => ((b :: rest).take 64) :: shaBlocks ((b :: rest).drop 64)
termination_by bs => bs.length
decreasing_by simp [List.length_drop]; omega

/-- SHA-256 message padding: `0x80`, zeros to 56 mod 64, then the bit length
as 8 big-endian bytes. -/
def shaPad (bs : List Nat) : List Nat :=
  let L := bs.length
  bs ++ [0x80] ++ List.replicate ((119 - L % 64) % 64) 0 ++ natToBytesBE 8 (L * 8)

/-- SHA-256 digest of a byte list, as 32 bytes. -/
def sha256Bytes (bs : List Nat) : List Nat :=
  let fin := (shaBlocks (shaPad bs)).foldl shaBlock shaInit
  natToBytesBE 4 fin.a ++ natToBytesBE 4 fin.b ++ natToBytesBE 4 fin.c ++
  natToBytesBE 4 fin.d ++ natToBytesBE 4 fin.e ++ natToBytesBE 4 fin.f ++
  natToBytesBE 4 fin.g ++ natToBytesBE 4 fin.h

/-- Lowercase hexadecimal digit characters. -/
def hexChar : Nat → Char
  | 0 => '0' | 1 => '1' | 2 => '2' | 3 => '3' | 4 => '4' | 5 => '5'
  | 6 => '6' | 7 => '7' | 8 => '8' | 9 => '9' | 10 => 'a' | 11 => 'b'
  | 12 => 'c' | 13 => 'd' | 14 => 'e' | _ => 'f'

/-- Hex encoding of a byte list. -/
def bytesToHex (bs : List Nat) : String :=
  String.mk (bs.flatMap (fun b => [hexChar (b / 16), hexChar (b % 16)]))

/-- UTF-8 bytes of a string. -/
def utf8Bytes (s : String) : List Nat := s.toUTF8.toList.map (·.toNat)

/-- `hashlib.sha256(text.encode("utf-8")).hexdigest()`. -/
def sha256Hex (text : String) : String := bytesToHex (sha256Bytes (utf8Bytes text))

/-! ### ContentStore (`storing_service/app/service.py`, `db_mongo.py`,
`events.py`)

The MongoDB collection is a list of documents in insertion order; `now`
stands for `datetime.utcnow()`.  The RabbitMQ queue is threaded through
`store_cv` as an explicit `queue` component so that event publication (or
its absence) is observable: `publish_cv_event` is defined below exactly as
in `events.py`, but `store_cv` has no call site for it anywhere in the
repository, so the queue passes through `store_cv` unchanged. -/

/-- A stored CV document (`service.py` lines 30-37). -/
structure CvDoc where
  cv_id : String
  cv_text : String
  metadata : Jv
  structured_sections : Jv
  created_at : Nat
  updated_at : Nat

/-- The dictionary returned by `store_cv`. -/
structure StoreResult where
  cv_id : String
  status : String
  message : String

/-- Observable outcome of one `store_cv` call: its return value, the
database afterwards, and the broker queue afterwards. -/
structure StoreOutcome where
  result : StoreResult
  db : List CvDoc
  queue : List String

/-- `db_mongo.find_cv_by_id`: first document with the given `cv_id`. -/
def find_cv_by_id (db : List CvDoc) (cv_id : String) : Option CvDoc :=
  db.find? (fun d => d.cv_id == cv_id)

/-- `db_mongo.insert_cv_document`: append the document to the collection. -/
def insert_cv_document (db : List CvDoc) (doc : CvDoc) : List CvDoc :=
  db ++ [doc]

/-- `events.publish_cv_event`: enqueue a persistent message carrying the
`cv_id` on the durable queue. -/
def publish_cv_event (queue : List String) (cv_id : String) : List String :=
  queue ++ [cv_id]

/-- `service.store_cv`: hash-based deduplicated insert.  Faithful to the
source: the id is the SHA-256 hex digest of `cv_text`, a duplicate id is a
no-op reporting `"already_exists"`, there is no validation of `cv_text`,
and no event is published (the queue is returned unchanged — `store_cv`
never calls `publish_cv_event`). -/
def store_cv (structured_json : List (String × Jv)) (cv_text : String)
    (db : List CvDoc) (queue : List String) (now : Nat) : StoreOutcome :=
  let cv_id := sha256Hex cv_text
  match find_cv_by_id db cv_id with
  | some _ =>
    ⟨⟨cv_id, "already_exists", "CV with this content already exists"⟩, db, queue⟩
  | none =>
    let document : CvDoc :=
      ⟨cv_id, cv_text, dictGetD structured_json "metadata" (.jdict []),
       dictGetD structured_json "structured_sections" (.jdict []), now, now⟩
    ⟨⟨cv_id, "stored", "CV stored successfully"⟩,
     insert_cv_document db document, queue⟩

/-! ### Event consumer (`vector_service/app/mq_consumer.py`)

The callback receives the body of a delivery.  `json.loads` is external;
its outcome is modelled as `Option Jv` (`none` when the body is not valid
JSON, in which case the exception is caught by the callback's generic
handler).  The downstream `process_cv_for_embedding` is modelled as a
predicate `handler` telling whether it returns successfully for a given
`cv_id` value. -/

/-- What the callback does with the delivery. -/
inductive AckAction where
  | ack : AckAction
  | nackRequeue : AckAction
  | nackDrop : AckAction

/-- `mq_consumer.callback`: parse the body, drop (nack without requeue) if
`cv_id` is missing or falsy, otherwise process and ack on success; any
raised exception (unparseable body, non-dict JSON, handler failure) is
caught and the delivery is nacked with requeue. -/
def callback (parsed : Option Jv) (handler : Jv → Bool) : AckAction :=
  match parsed with
  | none => .nackRequeue
  | some data =>
    match asDict data with
    | .error _ => .nackRequeue
    | .ok d =>
      let cv_id := (dictGet d "cv_id").getD .jnull
      if truthy cv_id = false then .nackDrop
      else if handler cv_id then .ack else .nackRequeue

/-! ### Chunker (`vector_service/app/embedder.py`) -/

/-- One chunk produced by the chunker.  `sectionName` embeds the chunk
dict's `"section"` key. -/
structure Chunk where
  cv_id : String
  sectionName : String
  text : String
  metadata : List (String × Jv)

/-- `_clean_join` inside `extract_text_from_object`: drop falsy parts, cast
to `str`, join with `" - "`, `None` when nothing remains. -/
def cleanJoin (parts : List Jv) : Option String :=
  match (parts.filter truthy).map pyStr with
  | [] => none
  | l => some (pyJoinList " - " l)

/-- `embedder.extract_text_from_object`: synthesize a short descriptive
text from an object, dispatching on the section name. -/
def extract_text_from_object (obj : List (String × Jv)) (sec : String) :
    PyResult (Option String) :=
  if sec = "experience" then
    let company := pyOr (dictGetD obj "company" .jnull) (.jstr "")
    let title := pyOr (dictGetD obj "title" .jnull) (.jstr "")
    let bullets := pyOr (dictGetD obj "bullets" .jnull) (.jlist [])
    if truthy bullets then .ok none
    else
      let location := pyOr (dictGetD obj "location" .jnull) (.jstr "")
      .ok (cleanJoin [company, title, location])
  else if sec = "projects" then
    let name := pyOr (dictGetD obj "name" .jnull) (.jstr "")
    let description := pyOr (dictGetD obj "description" .jnull) (.jstr "")
    let techs := pyOr (dictGetD obj "technologies" .jnull) (.jlist [])
    let parts1 := if truthy name then [name] else []
    let parts2 := if truthy description then parts1 ++ [description] else parts1
    if truthy techs then do
      let ts ← pyIter techs
      let techText := "Technologies: " ++ pyJoinList ", " ((ts.filter truthy).map pyStr)
      .ok (cleanJoin (parts2 ++ [.jstr techText]))
    else .ok (cleanJoin parts2)
  else if sec = "education" then
    let institution := pyOr (dictGetD obj "institution" .jnull) (.jstr "")
    let degree := pyOr (dictGetD obj "degree" .jnull) (.jstr "")
    let field := pyOr (dictGetD obj "field" .jnull) (.jstr "")
    let gpa := pyOr (dictGetD obj "gpa" .jnull) (.jstr "")
    let parts := [institution, degree, field]
    let parts := if truthy gpa then parts ++ [.jstr ("GPA: " ++ pyStr gpa)] else parts
    .ok (cleanJoin parts)
  else if sec = "leadership" then
    let role := pyOr (dictGetD obj "role" .jnull) (.jstr "")
    let organization := pyOr (dictGetD obj "organization" .jnull) (.jstr "")
    let description := pyOr (dictGetD obj "description" .jnull) (.jstr "")
    .ok (cleanJoin [role, organization, description])
  else if sec = "certifications" then
    let name := pyOr (dictGetD obj "name" .jnull) (.jstr "")
    let issuer := pyOr (dictGetD obj "issuer" .jnull) (.jstr "")
    let date := pyOr (dictGetD obj "date" .jnull) (.jstr "")
    let parts := [name]
    let parts := if truthy issuer then parts ++ [.jstr ("by " ++ pyStr issuer)] else parts
    let parts := if truthy date then parts ++ [date] else parts
    .ok (cleanJoin parts)
  else
    .ok (some (pyStr (.jdict obj)))

/-- The `for idx, item in enumerate(section_data)` loop of
`chunk_structured_sections` for a list-valued section: objects go through
`extract_text_from_object` (kept only when the synthesized text is truthy),
strings are kept when non-whitespace, everything else is skipped. -/
def chunkListItems (cv sec : String) : Nat → List Jv → PyResult (List Chunk)
  | _, [] => .ok []
  | idx, item :: rest => do
    let here ←
      match item with
      | .jdict d => do
        let t? ← extract_text_from_object d sec
        match t? with
        | some t =>
          if t = "" then pure []
          else pure [⟨cv, sec, t,
            dictUpdate [("type", .jstr "object"), ("index", .jnum idx)] d⟩]
        | none => pure ([] : List Chunk)
      | .jstr s =>
        if pyStrip s = "" then pure []
        else pure [⟨cv, sec, pyStrip s,
          [("type", .jstr "list_item"), ("index", .jnum idx)]⟩]
      | _ => pure ([] : List Chunk)
    let there ← chunkListItems cv sec (idx + 1) rest
    .ok (here ++ there)

/-- The `summary` branch of `chunk_structured_sections` (dict-shaped
summary): one chunk from the trimmed `text` field when truthy. -/
def summaryDict (cv : String) (d : List (String × Jv)) : PyResult (List Chunk) :=
  let summary_text := (dictGet d "text").getD .jnull
  if truthy summary_text = false then .ok []
  else
    match summary_text with
    | .jstr s =>
      if pyStrip s = "" then .ok []
      else .ok [⟨cv, "summary", pyStrip s, [("type", .jstr "summary")]⟩]
    | _ => .error "AttributeError: object has no attribute strip"

/-- The `skill_parts` accumulation of the `skills` branch: extend with each
category's items when the value is a truthy list. -/
def skillParts (kvs : List (String × Jv)) : List Jv :=
  kvs.foldl (fun acc kv =>
    match kv.2 with
    | .jlist xs => if truthy (.jlist xs) then acc ++ xs else acc
    | _ => acc) []

/-- The `skills` branch of `chunk_structured_sections` (dict-shaped
skills): flatten category lists and join with `", "`. -/
def skillsDict (cv : String) (kvs : List (String × Jv)) : PyResult (List Chunk) :=
  match skillParts kvs with
  | [] => .ok []
  | p :: ps => do
    let skills_text ← pyJoinStrs ", " (p :: ps)
    .ok [⟨cv, "skills", skills_text,
      [("type", .jstr "skills"), ("categories", .jlist (kvs.map (fun kv => .jstr kv.1)))]⟩]

/-- The trailing generic branches of the section loop: list of
objects/strings, bare string, anything else skipped. -/
def genericTail (cv sec : String) (data : Jv) : PyResult (List Chunk) :=
  match data with
  | .jlist items => chunkListItems cv sec 0 items
  | .jstr s =>
    if pyStrip s = "" then .ok []
    else .ok [⟨cv, sec, pyStrip s, [("type", .jstr "string")]⟩]
  | _ => .ok []

/-- One iteration of the section loop of `chunk_structured_sections`,
mirroring the branch order of the source. -/
def chunkSection (cv sec : String) (data : Jv) : PyResult (List Chunk) :=
  if truthy data = false then .ok []
  else if sec = "summary" then
    match data with
    | .jdict d => summaryDict cv d
    | _ => genericTail cv sec data
  else if sec = "contact" then .ok []
  else if sec = "experience" then .ok []
  else if sec = "projects" then .ok []
  else if sec = "skills" then
    match data with
    | .jdict kvs => skillsDict cv kvs
    | _ => genericTail cv sec data
  else genericTail cv sec data

/-- `embedder.chunk_structured_sections`: iterate the sections in order,
appending each section's chunks. -/
def chunk_structured_sections (sections : List (String × Jv)) (cv : String) :
    PyResult (List Chunk) :=
  match sections with
  | [] => .ok []
  | (n, v) :: rest => do
    let here ← chunkSection cv n v
    let there ← chunk_structured_sections rest cv
    .ok (here ++ there)

/-- The inner bullet loop of `chunk_experience_bullets`: one chunk per
truthy, non-whitespace bullet, prefixed with the company. -/
def expBulletLoop (cv : String) (company title : Jv) (d : List (String × Jv))
    (exp_idx : Nat) : Nat → List Jv → PyResult (List Chunk)
  | _, [] => .ok []
  | bullet_idx, b :: rest => do
    let here ←
      if truthy b = false then pure ([] : List Chunk)
      else
        match b with
        | .jstr s =>
          if pyStrip s = "" then pure []
          else pure [⟨cv, "experience", pyStr company ++ " - " ++ pyStrip s,
            [("type", .jstr "experience_bullet"), ("company", company),
             ("title", title), ("exp_index", .jnum exp_idx),
             ("bullet_index", .jnum bullet_idx),
             ("location", dictGetD d "location" (.jstr "")),
             ("start_date", dictGetD d "start_date" (.jstr "")),
             ("end_date", dictGetD d "end_date" (.jstr ""))]⟩]
        | _ => Except.error "AttributeError: object has no attribute strip"
    let there ← expBulletLoop cv company title d exp_idx (bullet_idx + 1) rest
    .ok (here ++ there)

/-- The outer entry loop of `chunk_experience_bullets`. -/
def expEntryLoop (cv : String) : Nat → List Jv → PyResult (List Chunk)
  | _, [] => .ok []
  | exp_idx, e :: rest => do
    let d ← asDict e
    let company := dictGetD d "company" (.jstr "")
    let title := dictGetD d "title" (.jstr "")
    let bullets := dictGetD d "bullets" (.jlist [])
    let bs ← pyIter bullets
    let here ← expBulletLoop cv company title d exp_idx 0 bs
    let there ← expEntryLoop cv (exp_idx + 1) rest
    .ok (here ++ there)

/-- `embedder.chunk_experience_bullets`: each bullet becomes a separate
chunk with company context; entries without bullets contribute nothing. -/
def chunk_experience_bullets (experience_list : Jv) (cv : String) :
    PyResult (List Chunk) := do
  let es ← pyIter experience_list
  expEntryLoop cv 0 es

/-- The inner bullet loop of `chunk_projects_bullets`. -/
def projBulletLoop (cv : String) (name : Jv) (d : List (String × Jv))
    (proj_idx : Nat) : Nat → List Jv → PyResult (List Chunk)
  | _, [] => .ok []
  | bullet_idx, b :: rest => do
    let here ←
      if truthy b = false then pure ([] : List Chunk)
      else
        match b with
        | .jstr s =>
          if pyStrip s = "" then pure []
          else pure [⟨cv, "projects", pyStr name ++ " - " ++ pyStrip s,
            [("type", .jstr "project_bullet"), ("project_name", name),
             ("proj_index", .jnum proj_idx), ("bullet_index", .jnum bullet_idx),
             ("technologies", dictGetD d "technologies" (.jlist [])),
             ("link", dictGetD d "link" (.jstr ""))]⟩]
        | _ => Except.error "AttributeError: object has no attribute strip"
    let there ← projBulletLoop cv name d proj_idx (bullet_idx + 1) rest
    .ok (here ++ there)

/-- The outer entry loop of `chunk_projects_bullets`: bullets when present,
otherwise a single description fallback chunk. -/
def projEntryLoop (cv : String) : Nat → List Jv → PyResult (List Chunk)
  | _, [] => .ok []
  | proj_idx, e :: rest => do
    let d ← asDict e
    let name := dictGetD d "name" (.jstr "")
    let bullets := dictGetD d "bullets" (.jlist [])
    let here ←
      if truthy bullets then do
        let bs ← pyIter bullets
        projBulletLoop cv name d proj_idx 0 bs
      else
        let description := dictGetD d "description" (.jstr "")
        if truthy description = false then pure ([] : List Chunk)
        else
          match description with
          | .jstr s =>
            if pyStrip s = "" then pure []
            else pure [⟨cv, "projects", pyStr name ++ " - " ++ pyStrip s,
              [("type", .jstr "project_description"), ("project_name", name),
               ("proj_index", .jnum proj_idx),
               ("technologies", dictGetD d "technologies" (.jlist []))]⟩]
          | _ => Except.error "AttributeError: object has no attribute strip"
    let there ← projEntryLoop cv (proj_idx + 1) rest
    .ok (here ++ there)

/-- `embedder.chunk_projects_bullets`. -/
def chunk_projects_bullets (projects_list : Jv) (cv : String) :
    PyResult (List Chunk) := do
  let ps ← pyIter projects_list
  projEntryLoop cv 0 ps

/-! ### Embedder (`embedder.py` lines 286-330)

The external sentence-transformer model is a parameter
`f : String → List Int` (a fixed deterministic encoder). -/

/-- A chunk with its embedding attached. -/
structure EChunk where
  chunk : Chunk
  embedding : List Int

/-- `embedder.embed_text`: single-text embedding, which raises `ValueError`
on empty or whitespace-only input. -/
def embed_text (f : String → List Int) (text : String) : PyResult (List Int) :=
  if text = "" then .error "ValueError: Text cannot be empty"
  else if pyStrip text = "" then .error "ValueError: Text cannot be empty"
  else .ok (f text)

/-- `embedder.embed_chunks`: batch embedding.  Faithful to the source: an
empty list returns early, and otherwise every chunk's text is encoded and
attached with no emptiness check of any kind. -/
def embed_chunks (f : String → List Int) (chunks : List Chunk) : List EChunk :=
  match chunks with
  | [] => []
  | cs => cs.map (fun c => ⟨c, f c.text⟩)

/-! ### Ingest pipeline (`scripts/ingest_dataset.py`, `main`, lines 335-410) -/

/-- The full chunk sequence for one record, exactly as assembled in
`main`: generic pass, then experience bullets, then project bullets
(`all_chunks = base_chunks + exp_chunks + proj_chunks`). -/
def allChunksOf (sections : List (String × Jv)) (cv : String) :
    PyResult (List Chunk) := do
  let base ← chunk_structured_sections sections cv
  let exp_list := pyOr (dictGetD sections "experience" (.jlist [])) (.jlist [])
  let exp_chunks ← chunk_experience_bullets exp_list cv
  let proj_list := pyOr (dictGetD sections "projects" (.jlist [])) (.jlist [])
  let proj_chunks ← chunk_projects_bullets proj_list cv
  .ok (base ++ exp_chunks ++ proj_chunks)

/-- Metadata sanitization for the vector backend (lines 380-392): drop
`None`, pass strings/numbers/booleans through, coerce lists to lists of
strings dropping `None` elements, stringify anything else. -/
def sanitizeVal : Jv → Option Jv
  | .jnull => none
  | .jstr s => some (.jstr s)
  | .jnum n => some (.jnum n)
  | .jbool b => some (.jbool b)
  | .jlist xs => some (.jlist ((xs.filter (fun x =>
      match x with | .jnull => false | _ => true)).map (fun x => .jstr (pyStr x))))
  | .jdict kvs => some (.jstr (pyStr (.jdict kvs)))

/-- Apply `sanitizeVal` entrywise, dropping entries whose value is `None`. -/
def sanitizeMeta (m : List (String × Jv)) : List (String × Jv) :=
  m.filterMap (fun kv => (sanitizeVal kv.2).map (fun v => (kv.1, v)))

/-- Lines 376-377: tag the metadata with `source = "dataset"` when the key
is absent. -/
def ensureSource (m : List (String × Jv)) : List (String × Jv) :=
  match dictGet m "source" with
  | some _ => m
  | none => m ++ [("source", .jstr "dataset")]

/-- The deterministic vector id
`f"\x7bcv_id\x7d_\x7bchunk['section']\x7d_\x7bidx\x7d"` (line 370). -/
def mkVectorId (cv sec : String) (idx : Nat) : String :=
  cv ++ "_" ++ sec ++ "_" ++ natRepr idx

/-- The final metadata sent to the backend (lines 395-400): the reserved
entries first, then `**clean_metadata` — so sanitized chunk-metadata
entries override the reserved keys on collision. -/
def finalMeta (cv : String) (c : Chunk) : List (String × Jv) :=
  dictUpdate
    [("cv_id", .jstr cv), ("section", .jstr c.sectionName), ("raw_text", .jstr c.text)]
    (sanitizeMeta (ensureSource c.metadata))

/-- One vector sent to the backend. -/
structure PVector where
  id : String
  values : List Int
  metadata : List (String × Jv)

/-- Build one vector from an embedded chunk at ordinal position `idx`. -/
def mkVector (cv : String) (idx : Nat) (e : EChunk) : PVector :=
  ⟨mkVectorId cv e.chunk.sectionName idx, e.embedding, finalMeta cv e.chunk⟩

/-- The `for idx, chunk in enumerate(all_chunks)` vector-building loop,
with the running ordinal made explicit. -/
def buildVectorsFrom (cv : String) : Nat → List EChunk → List PVector
  | _, [] => []
  | idx, e :: rest => mkVector cv idx e :: buildVectorsFrom cv (idx + 1) rest

/-- The vectors upserted for one record. -/
def buildVectors (cv : String) (es : List EChunk) : List PVector :=
  buildVectorsFrom cv 0 es

/-- Modelled from the spec: the external vector backend (Pinecone) stores
vectors keyed by id, and `index.upsert` is insert-or-replace — an existing
id is overwritten in place, a new id is appended (spec sections 3 and 4.5:
"re-upsert overwrites by id rather than duplicating"). -/
def upsertOne : List PVector → PVector → List PVector
  | [], v => [v]
  | w :: B, v => if w.id = v.id then v :: B else w :: upsertOne B v

/-- Upsert a batch of vectors in order. -/
def upsertAll (B : List PVector) (vs : List PVector) : List PVector :=
  vs.foldl upsertOne B

/-- The ids present in the backend, in storage order. -/
def backendIds (B : List PVector) : List String := B.map (fun v => v.id)

/-- Number of vectors the backend holds for one record: ids carrying the
record's id-scheme tag `cv ++ "_"`. -/
def recordCount (B : List PVector) (cv : String) : Nat :=
  (backendIds B).countP (fun i => (cv ++ "_").isPrefixOf i)

/-- The vector-id sequence the id scheme assigns to a chunk list starting
at ordinal `k`: each id is built from the record id, the chunk's section,
and the chunk's ordinal position, and from nothing else. -/
def idSeq (cv : String) : Nat → List Chunk → List String
  | _, [] => []
  | k, c :: cs => mkVectorId cv c.sectionName k :: idSeq cv (k + 1) cs

/-! ### Helper lemmas -/

/-- Boolean test for a string with content after trimming. -/
def trimNonempty (s : String) : Bool := if pyStrip s = "" then false else true

/-- Finding in an appended store: search the old documents first. -/
theorem find_cv_by_id_append (db : List CvDoc) (d : CvDoc) (i : String) :
    find_cv_by_id (db ++ [d]) i =
      ((find_cv_by_id db i).orElse (fun _ => if d.cv_id = i then some d else none)) := by
  unfold find_cv_by_id
  rw [List.find?_append]
  by_cases hd : d.cv_id = i
  · cases h : db.find? (fun x => x.cv_id == i) <;>
      simp [Option.orElse, Option.or, List.find?, hd]
  · have hb : (d.cv_id == i) = false := beq_eq_false_iff_ne.mpr hd
    cases h : db.find? (fun x => x.cv_id == i) <;>
      simp [Option.orElse, Option.or, List.find?, hb, hd]

/-- C1.  The record id is the SHA-256 hex digest of the raw text alone —
independent of the structured content — and `store_cv` is idempotent: a
second call with the same raw text (and any structured content) returns
the same id, reports `"already_exists"`, and leaves the stored record set
unchanged. -/
theorem store_cv_idempotent (s1 s2 : List (String × Jv)) (text : String)
    (db : List CvDoc) (q1 q2 : List String) (now1 now2 : Nat) :
    (store_cv s1 text db q1 now1).result.cv_id = sha256Hex text ∧
    (store_cv s2 text (store_cv s1 text db q1 now1).db q2 now2).result.cv_id =
      (store_cv s1 text db q1 now1).result.cv_id ∧
    (store_cv s2 text (store_cv s1 text db q1 now1).db q2 now2).result.status =
      "already_exists" ∧
    (store_cv s2 text (store_cv s1 text db q1 now1).db q2 now2).db =
      (store_cv s1 text db q1 now1).db := by
  cases h : find_cv_by_id db (sha256Hex text) with
  | some d => simp [store_cv, h]
  | none =>
    simp only [store_cv, h, insert_cv_document]
    rw [find_cv_by_id_append]
    simp [h, Option.orElse]

/-- C4 (code bug).  A `put` that stores a fresh record reports `"stored"`
yet publishes nothing: the broker queue is unchanged by `store_cv` (its
`queue` component passes through untouched), even though
`publish_cv_event` — which would enqueue exactly one event carrying the
id — exists in `events.py` with no call site. -/
theorem store_cv_publishes_no_event :
    (store_cv [] "Jane Doe" [] [] 0).result.status = "stored" ∧
    (store_cv [] "Jane Doe" [] [] 0).queue = [] ∧
    (∀ s text db q now, (store_cv s text db q now).queue = q) ∧
    (∀ q cv_id, publish_cv_event q cv_id = q ++ [cv_id]) := by
  refine ⟨rfl, rfl, fun s text db q now => ?_, fun q cv_id => rfl⟩
  cases h : find_cv_by_id db (sha256Hex text) <;> simp [store_cv, h]

/-- C8 (counterexample).  Storing an empty `raw_text` does not fail with a
validation error: the call reports `"stored"` and a record is persisted. -/
theorem empty_text_store_cex :
    (store_cv [] "" [] [] 0).result.status = "stored" ∧
    (store_cv [] "" [] [] 0).db.length = 1 := ⟨rfl, rfl⟩

/-- C8 (amended).  `store_cv` performs no emptiness validation: for empty
or whitespace-only raw text it behaves exactly like any other put — it
either stores a new record (status `"stored"`, one more document) or
reports `"already_exists"` leaving the store unchanged; no error is ever
raised.  (Emptiness is rejected upstream, by the gateway and by the
structuring service, not by the store.) -/
theorem store_cv_no_validation_amended (s : List (String × Jv))
    (db : List CvDoc) (q : List String) (now : Nat) (text : String)
    (_hws : pyStrip text = "") :
    ((find_cv_by_id db (sha256Hex text)).isSome →
      (store_cv s text db q now).result.status = "already_exists" ∧
      (store_cv s text db q now).db = db) ∧
    (find_cv_by_id db (sha256Hex text) = none →
      (store_cv s text db q now).result.status = "stored" ∧
      (store_cv s text db q now).db.length = db.length + 1) := by
  constructor
  · intro hs
    cases hfind : find_cv_by_id db (sha256Hex text) with
    | some d => simp [store_cv, hfind]
    | none => rw [hfind] at hs; simp at hs
  · intro hn
    simp [store_cv, hn, insert_cv_document]

/-- Witness for C8's amended theorem at the concrete empty raw text. -/
theorem store_cv_no_validation_amended_witness :
    pyStrip "" = "" ∧
    (find_cv_by_id [] (sha256Hex "") = none →
      (store_cv [] "" [] [] 0).result.status = "stored" ∧
      (store_cv [] "" [] [] 0).db.length = ([] : List CvDoc).length + 1) :=
  ⟨rfl, (store_cv_no_validation_amended [] [] [] 0 "" rfl).2⟩

/-- C5.  The consumer acknowledges a delivery exactly when the handler
returns successfully; a handler failure yields a negative acknowledgement
with requeue; a payload whose `cv_id` is missing (or falsy) is negatively
acknowledged without requeue. -/
theorem consumer_ack_iff_handler_ok (d : List (String × Jv)) (handler : Jv → Bool) :
    (truthy ((dictGet d "cv_id").getD .jnull) = false →
      callback (some (.jdict d)) handler = .nackDrop) ∧
    (truthy ((dictGet d "cv_id").getD .jnull) = true →
      (callback (some (.jdict d)) handler = .ack ↔
        handler ((dictGet d "cv_id").getD .jnull) = true)) ∧
    (truthy ((dictGet d "cv_id").getD .jnull) = true →
      handler ((dictGet d "cv_id").getD .jnull) = false →
      callback (some (.jdict d)) handler = .nackRequeue) := by
  refine ⟨fun ht => ?_, fun ht => ?_, fun ht hh => ?_⟩
  · simp [callback, asDict, ht]
  · cases hh : handler ((dictGet d "cv_id").getD .jnull) <;>
      simp [callback, asDict, ht, hh]
  · simp [callback, asDict, ht, hh]

/-- Witness for C5 at concrete payloads and handlers. -/
theorem consumer_ack_iff_handler_ok_witness :
    callback (some (.jdict [("cv_id", .jstr "abc")])) (fun _ => true) = .ack ∧
    callback (some (.jdict [("cv_id", .jstr "abc")])) (fun _ => false) = .nackRequeue ∧
    callback (some (.jdict [("other", .jnull)])) (fun _ => true) = .nackDrop :=
  ⟨((consumer_ack_iff_handler_ok [("cv_id", .jstr "abc")] (fun _ => true)).2.1
      rfl).mpr rfl,
   (consumer_ack_iff_handler_ok [("cv_id", .jstr "abc")] (fun _ => false)).2.2
      rfl rfl,
   (consumer_ack_iff_handler_ok [("other", .jnull)] (fun _ => true)).1 rfl⟩

/-- C10.  A delivery whose body is not parseable as JSON raises inside the
callback and is negatively acknowledged with requeue, while a parseable
object that merely lacks `cv_id` is dropped without requeue. -/
theorem consumer_malformed_json_requeue (handler : Jv → Bool) :
    callback none handler = .nackRequeue ∧
    (∀ d : List (String × Jv), dictGet d "cv_id" = none →
      callback (some (.jdict d)) handler = .nackDrop) := by
  refine ⟨rfl, fun d h => ?_⟩
  simp [callback, asDict, h, truthy]

/-- Witness for C10 at a concrete unparseable body and a concrete payload
lacking `cv_id`. -/
theorem consumer_malformed_json_requeue_witness :
    callback none (fun _ => true) = .nackRequeue ∧
    callback (some (.jdict [("other", .jnull)])) (fun _ => true) = .nackDrop :=
  ⟨(consumer_malformed_json_requeue (fun _ => true)).1,
   (consumer_malformed_json_requeue (fun _ => true)).2 [("other", .jnull)] rfl⟩

/-- C9 (counterexample).  The batch operation `embed_chunks` silently
embeds a chunk whose text is empty after trimming: no error of any kind is
raised, and the empty text is encoded and attached. -/
theorem embed_chunks_no_check_cex :
    pyStrip (Chunk.mk "cv1" "summary" "" []).text = "" ∧
    embed_chunks (fun _ => [0]) [Chunk.mk "cv1" "summary" "" []] =
      [⟨Chunk.mk "cv1" "summary" "" [], [0]⟩] := ⟨rfl, rfl⟩

/-- C9 (amended).  The emptiness check lives in the single-text operation
`embed_text`, which fails whenever its text is empty after trimming; the
batch operation `embed_chunks` performs no emptiness check and attaches an
embedding to every chunk unconditionally. -/
theorem embed_empty_input_amended (f : String → List Int) :
    (∀ text : String, pyStrip text = "" →
      embed_text f text = .error "ValueError: Text cannot be empty") ∧
    (∀ text : String, pyStrip text ≠ "" → embed_text f text = .ok (f text)) ∧
    (∀ chunks : List Chunk,
      embed_chunks f chunks = chunks.map (fun c => ⟨c, f c.text⟩)) := by
  refine ⟨fun text h => ?_, fun text h => ?_, fun chunks => ?_⟩
  · by_cases he : text = "" <;> simp [embed_text, he, h]
  · have he : text ≠ "" := by
      intro he
      rw [he] at h
      exact h rfl
    simp [embed_text, he, h]
  · cases chunks <;> simp [embed_chunks]

/-- Witness for C9's amended theorem at concrete texts. -/
theorem embed_empty_input_amended_witness :
    embed_text (fun _ => [7]) " " = .error "ValueError: Text cannot be empty" ∧
    embed_text (fun _ => [7]) "x" = .ok [7] :=
  ⟨(embed_empty_input_amended (fun _ => [7])).1 " " rfl,
   (embed_empty_input_amended (fun _ => [7])).2.1 "x" (by decide)⟩

/-! ### Bullet chunking characterization (claim C2) -/

/-- Reduction of `Except` bind on a success value. -/
@[simp] theorem except_bind_ok {α β ε : Type} (a : α) (f : α → Except ε β) :
    (Except.ok a : Except ε α) >>= f = f a := rfl

/-- Reduction of `Except` bind on an error value. -/
@[simp] theorem except_bind_err {α β ε : Type} (e : ε) (f : α → Except ε β) :
    (Except.error e : Except ε α) >>= f = .error e := rfl

/-- Reduction of `pure` for `Except`. -/
@[simp] theorem except_pure_eq {α ε : Type} (a : α) :
    (pure a : Except ε α) = .ok a := rfl

/-- A well-typed experience entry as produced by the structuring service:
string fields and a list of string bullets. -/
structure ExpEntry where
  company : String
  title : String
  location : String
  start_date : String
  end_date : String
  bullets : List String
  description : String

/-- The dict entries of an experience entry. -/
def ExpEntry.fields (e : ExpEntry) : List (String × Jv) :=
  [("company", .jstr e.company), ("title", .jstr e.title),
   ("location", .jstr e.location), ("start_date", .jstr e.start_date),
   ("end_date", .jstr e.end_date), ("bullets", .jlist (e.bullets.map .jstr)),
   ("description", .jstr e.description)]

/-- An experience entry as a Python dict. -/
def ExpEntry.toJv (e : ExpEntry) : Jv := .jdict e.fields

/-- A well-typed projects entry. -/
structure ProjEntry where
  name : String
  description : String
  link : String
  technologies : List String
  bullets : List String

/-- The dict entries of a projects entry. -/
def ProjEntry.fields (e : ProjEntry) : List (String × Jv) :=
  [("name", .jstr e.name), ("description", .jstr e.description),
   ("link", .jstr e.link), ("technologies", .jlist (e.technologies.map .jstr)),
   ("bullets", .jlist (e.bullets.map .jstr))]

/-- A projects entry as a Python dict. -/
def ProjEntry.toJv (e : ProjEntry) : Jv := .jdict e.fields

/-- Number of chunks `chunk_projects_bullets` emits for one entry: one per
non-whitespace bullet when the bullets list is non-empty, else one for a
non-whitespace description, else none. -/
def projChunkCount (e : ProjEntry) : Nat :=
  match e.bullets with
  | [] => if trimNonempty e.description then 1 else 0
  | _ :: _ => (e.bullets.filter trimNonempty).length

/-- The bullet loop of the experience chunker on string bullets: one chunk
per bullet with content, each labelled with the company. -/
theorem expBulletLoop_spec (cv comp : String) (title : Jv)
    (d : List (String × Jv)) (i : Nat) (bs : List String) : ∀ j : Nat,
    ∃ cs, expBulletLoop cv (.jstr comp) title d i j (bs.map .jstr) = .ok cs ∧
      cs.length = (bs.filter trimNonempty).length ∧
      ∀ c ∈ cs, ∃ b ∈ bs, c.text = comp ++ " - " ++ pyStrip b := by
  induction bs with
  | nil => exact fun j => ⟨[], rfl, rfl, by simp⟩
  | cons b rest ih =>
    intro j
    obtain ⟨cs, h1, h2, h3⟩ := ih (j + 1)
    by_cases hb : b = ""
    · subst hb
      refine ⟨cs, ?_, ?_, fun c hc => ?_⟩
      · simp [expBulletLoop, truthy, h1]
      · have ht : trimNonempty "" = false := rfl
        simp [ht, h2]
      · obtain ⟨b', hb', htext⟩ := h3 c hc
        exact ⟨b', by simp [hb'], htext⟩
    · by_cases hs : pyStrip b = ""
      · refine ⟨cs, ?_, ?_, fun c hc => ?_⟩
        · simp [expBulletLoop, truthy, hb, hs, h1]
        · have ht : trimNonempty b = false := by simp [trimNonempty, hs]
          simp [ht, h2]
        · obtain ⟨b', hb', htext⟩ := h3 c hc
          exact ⟨b', by simp [hb'], htext⟩
      · refine ⟨⟨cv, "experience", comp ++ " - " ++ pyStrip b,
          [("type", .jstr "experience_bullet"), ("company", .jstr comp),
           ("title", title), ("exp_index", .jnum i), ("bullet_index", .jnum j),
           ("location", dictGetD d "location" (.jstr "")),
           ("start_date", dictGetD d "start_date" (.jstr "")),
           ("end_date", dictGetD d "end_date" (.jstr ""))]⟩ :: cs, ?_, ?_, ?_⟩
        · simp [expBulletLoop, truthy, hb, hs, h1, pyStr]
        · have ht : trimNonempty b = true := by simp [trimNonempty, hs]
          simp [ht, h2]
        · intro c hc
          rcases List.mem_cons.mp hc with rfl | hc'
          · exact ⟨b, by simp, rfl⟩
          · obtain ⟨b', hb', htext⟩ := h3 c hc'
            exact ⟨b', by simp [hb'], htext⟩

/-- The entry loop of the experience chunker on well-typed entries. -/
theorem expEntryLoop_spec (cv : String) (entries : List ExpEntry) : ∀ i : Nat,
    ∃ cs, expEntryLoop cv i (entries.map ExpEntry.toJv) = .ok cs ∧
      cs.length = (entries.map (fun e => (e.bullets.filter trimNonempty).length)).sum ∧
      ∀ c ∈ cs, ∃ e ∈ entries, ∃ b ∈ e.bullets, c.text = e.company ++ " - " ++ pyStrip b := by
  induction entries with
  | nil => exact fun i => ⟨[], rfl, rfl, by simp⟩
  | cons e rest ih =>
    intro i
    obtain ⟨cs, h1, h2, h3⟩ := ih (i + 1)
    obtain ⟨hs, g1, g2, g3⟩ := expBulletLoop_spec cv e.company (.jstr e.title) e.fields i e.bullets 0
    have hstep : expEntryLoop cv i (e.toJv :: rest.map ExpEntry.toJv) =
        (expBulletLoop cv (.jstr e.company) (.jstr e.title) e.fields i 0
            (e.bullets.map .jstr) >>= fun here =>
          expEntryLoop cv (i + 1) (rest.map ExpEntry.toJv) >>= fun there =>
          .ok (here ++ there)) := rfl
    refine ⟨hs ++ cs, ?_, ?_, ?_⟩
    · simp only [List.map_cons, hstep, g1, except_bind_ok, h1]
    · simp [g2, h2]
    · intro c hc
      rcases List.mem_append.mp hc with hc' | hc'
      · obtain ⟨b, hb, htext⟩ := g3 c hc'
        exact ⟨e, by simp, b, hb, htext⟩
      · obtain ⟨e', he', b, hb, htext⟩ := h3 c hc'
        exact ⟨e', by simp [he'], b, hb, htext⟩

/-- The bullet loop of the projects chunker on string bullets. -/
theorem projBulletLoop_spec (cv nm : String) (d : List (String × Jv))
    (i : Nat) (bs : List String) : ∀ j : Nat,
    ∃ cs, projBulletLoop cv (.jstr nm) d i j (bs.map .jstr) = .ok cs ∧
      cs.length = (bs.filter trimNonempty).length ∧
      ∀ c ∈ cs, ∃ b ∈ bs, c.text = nm ++ " - " ++ pyStrip b := by
  induction bs with
  | nil => exact fun j => ⟨[], rfl, rfl, by simp⟩
  | cons b rest ih =>
    intro j
    obtain ⟨cs, h1, h2, h3⟩ := ih (j + 1)
    by_cases hb : b = ""
    · subst hb
      refine ⟨cs, ?_, ?_, fun c hc => ?_⟩
      · simp [projBulletLoop, truthy, h1]
      · have ht : trimNonempty "" = false := rfl
        simp [ht, h2]
      · obtain ⟨b', hb', htext⟩ := h3 c hc
        exact ⟨b', by simp [hb'], htext⟩
    · by_cases hs : pyStrip b = ""
      · refine ⟨cs, ?_, ?_, fun c hc => ?_⟩
        · simp [projBulletLoop, truthy, hb, hs, h1]
        · have ht : trimNonempty b = false := by simp [trimNonempty, hs]
          simp [ht, h2]
        · obtain ⟨b', hb', htext⟩ := h3 c hc
          exact ⟨b', by simp [hb'], htext⟩
      · refine ⟨⟨cv, "projects", nm ++ " - " ++ pyStrip b,
          [("type", .jstr "project_bullet"), ("project_name", .jstr nm),
           ("proj_index", .jnum i), ("bullet_index", .jnum j),
           ("technologies", dictGetD d "technologies" (.jlist [])),
           ("link", dictGetD d "link" (.jstr ""))]⟩ :: cs, ?_, ?_, ?_⟩
        · simp [projBulletLoop, truthy, hb, hs, h1, pyStr]
        · have ht : trimNonempty b = true := by simp [trimNonempty, hs]
          simp [ht, h2]
        · intro c hc
          rcases List.mem_cons.mp hc with rfl | hc'
          · exact ⟨b, by simp, rfl⟩
          · obtain ⟨b', hb', htext⟩ := h3 c hc'
            exact ⟨b', by simp [hb'], htext⟩

/-- The entry loop of the projects chunker on well-typed entries: bullets
when the bullets list is non-empty, otherwise a description fallback. -/
theorem projEntryLoop_spec (cv : String) (entries : List ProjEntry) : ∀ i : Nat,
    ∃ cs, projEntryLoop cv i (entries.map ProjEntry.toJv) = .ok cs ∧
      cs.length = (entries.map projChunkCount).sum ∧
      ∀ c ∈ cs, ∃ e ∈ entries,
        (∃ b ∈ e.bullets, c.text = e.name ++ " - " ++ pyStrip b) ∨
        (e.bullets = [] ∧ c.text = e.name ++ " - " ++ pyStrip e.description) := by
  induction entries with
  | nil => exact fun i => ⟨[], rfl, rfl, by simp⟩
  | cons e rest ih =>
    intro i
    obtain ⟨cs, h1, h2, h3⟩ := ih (i + 1)
    obtain ⟨nm, ds, lk, te, bl⟩ := e
    cases bl with
    | nil =>
      by_cases hd : ds = ""
      · refine ⟨cs, ?_, ?_, fun c hc => ?_⟩
        · simp [projEntryLoop, ProjEntry.toJv, ProjEntry.fields, asDict,
            dictGetD, dictGet, truthy, hd, h1]
        · have ht : trimNonempty "" = false := rfl
          simp [projChunkCount, hd, ht, h2]
        · obtain ⟨e', he', hrest⟩ := h3 c hc
          exact ⟨e', by simp [he'], hrest⟩
      · by_cases hs : pyStrip ds = ""
        · refine ⟨cs, ?_, ?_, fun c hc => ?_⟩
          · simp [projEntryLoop, ProjEntry.toJv, ProjEntry.fields, asDict,
              dictGetD, dictGet, truthy, hd, hs, h1]
          · have ht : trimNonempty ds = false := by simp [trimNonempty, hs]
            simp [projChunkCount, ht, h2]
          · obtain ⟨e', he', hrest⟩ := h3 c hc
            exact ⟨e', by simp [he'], hrest⟩
        · refine ⟨⟨cv, "projects", nm ++ " - " ++ pyStrip ds,
            [("type", .jstr "project_description"), ("project_name", .jstr nm),
             ("proj_index", .jnum i), ("technologies", .jlist (te.map .jstr))]⟩ :: cs,
            ?_, ?_, ?_⟩
          · simp [projEntryLoop, ProjEntry.toJv, ProjEntry.fields, asDict,
              dictGetD, dictGet, truthy, hd, hs, h1, pyStr]
          · have ht : trimNonempty ds = true := by simp [trimNonempty, hs]
            simp only [List.length_cons, List.map_cons, List.sum_cons,
              projChunkCount, ht, h2, if_true]
            omega
          · intro c hc
            rcases List.mem_cons.mp hc with rfl | hc'
            · exact ⟨ProjEntry.mk nm ds lk te [], by simp, Or.inr ⟨rfl, rfl⟩⟩
            · obtain ⟨e', he', hrest⟩ := h3 c hc'
              exact ⟨e', by simp [he'], hrest⟩
    | cons b bs =>
      obtain ⟨hsb, g1, g2, g3⟩ := projBulletLoop_spec cv nm
        (ProjEntry.mk nm ds lk te (b :: bs)).fields i (b :: bs) 0
      have hstep : projEntryLoop cv i
          ((ProjEntry.mk nm ds lk te (b :: bs)).toJv :: rest.map ProjEntry.toJv) =
          (projBulletLoop cv (.jstr nm) (ProjEntry.mk nm ds lk te (b :: bs)).fields i 0
              ((b :: bs).map .jstr) >>= fun here =>
            projEntryLoop cv (i + 1) (rest.map ProjEntry.toJv) >>= fun there =>
            (.ok (here ++ there) : PyResult (List Chunk))) := rfl
      refine ⟨hsb ++ cs, ?_, ?_, ?_⟩
      · rw [List.map_cons, hstep, g1]
        simp [h1]
      · simp [projChunkCount, g2, h2]
      · intro c hc
        rcases List.mem_append.mp hc with hc' | hc'
        · obtain ⟨b', hb', htext⟩ := g3 c hc'
          exact ⟨ProjEntry.mk nm ds lk te (b :: bs), by simp, Or.inl ⟨b', hb', htext⟩⟩
        · obtain ⟨e', he', hrest⟩ := h3 c hc'
          exact ⟨e', by simp [he'], hrest⟩

/-- C2 (counterexample).  An experience entry with an empty bullets list
and a present, non-empty description yields no chunk at all from the
experience bullet chunker: there is no description fallback for
experience, contrary to the claim. -/
theorem experience_fallback_cex :
    chunk_experience_bullets
      (.jlist [.jdict [("company", .jstr "Acme"), ("bullets", .jlist []),
        ("description", .jstr "Did things")]]) "cv1" = .ok [] ∧
    pyStrip "Did things" ≠ "" := ⟨rfl, by decide⟩

/-- C2 (amended).  For both experience and projects, a non-empty bullets
list yields exactly one chunk per bullet with content after trimming, each
chunk's text starting with the parent's contextual label (company for
experience, project name for projects).  The description fallback exists
only for projects: a projects entry with an empty bullets list falls back
to one chunk from its non-empty description, while an experience entry
with an empty bullets list yields no chunk at all — its description field
is ignored. -/
theorem bullet_chunking_amended (cv : String) (entries : List ExpEntry)
    (pentries : List ProjEntry) :
    (∃ cs, chunk_experience_bullets (.jlist (entries.map ExpEntry.toJv)) cv = .ok cs ∧
      cs.length = (entries.map (fun e => (e.bullets.filter trimNonempty).length)).sum ∧
      ∀ c ∈ cs, ∃ e ∈ entries, ∃ b ∈ e.bullets,
        c.text = e.company ++ " - " ++ pyStrip b) ∧
    (∀ e : ExpEntry, e.bullets = [] →
      chunk_experience_bullets (.jlist [e.toJv]) cv = .ok []) ∧
    (∃ ps, chunk_projects_bullets (.jlist (pentries.map ProjEntry.toJv)) cv = .ok ps ∧
      ps.length = (pentries.map projChunkCount).sum ∧
      ∀ c ∈ ps, ∃ e ∈ pentries,
        (∃ b ∈ e.bullets, c.text = e.name ++ " - " ++ pyStrip b) ∨
        (e.bullets = [] ∧ c.text = e.name ++ " - " ++ pyStrip e.description)) := by
  refine ⟨?_, ?_, ?_⟩
  · obtain ⟨cs, h1, h2, h3⟩ := expEntryLoop_spec cv entries 0
    exact ⟨cs, h1, h2, h3⟩
  · intro e hb
    obtain ⟨cs, h1, h2, _⟩ := expEntryLoop_spec cv [e] 0
    have : cs.length = 0 := by simp [h2, hb]
    rw [List.length_eq_zero] at this
    rw [this] at h1
    exact h1
  · obtain ⟨ps, h1, h2, h3⟩ := projEntryLoop_spec cv pentries 0
    exact ⟨ps, h1, h2, h3⟩

/-! ### Whitespace and trimming lemmas (claim C3) -/

/-- A string with ink: some character survives trimming. -/
def hasInk (s : String) : Bool := s.data.any (fun c => !isPyWs c)

/-- Elements of `dropWhile` are elements of the list. -/
theorem mem_dropWhile_of_not {p : Char → Bool} {c : Char} (h : p c = false) :
    ∀ {l : List Char}, c ∈ l → c ∈ l.dropWhile p := by
  intro l hl
  induction l with
  | nil => cases hl
  | cons a t ih =>
    by_cases hp : p a = true
    · have hct : c ∈ t := by
        rcases List.mem_cons.mp hl with h1 | h1
        · rw [h1] at h; rw [h] at hp; exact Bool.noConfusion hp
        · exact h1
      rw [List.dropWhile_cons, if_pos hp]
      exact ih hct
    · rw [List.dropWhile_cons, if_neg hp]
      exact hl

/-- Trimming yields the empty string exactly when every character is
whitespace. -/
theorem pyStrip_eq_empty_iff (s : String) :
    pyStrip s = "" ↔ ∀ c ∈ s.data, isPyWs c = true := by
  have hmk : ∀ l : List Char, String.mk l = "" ↔ l = [] := by
    intro l
    constructor
    · intro h
      exact congrArg String.data h
    · intro h; rw [h]
  rw [pyStrip, hmk, List.reverse_eq_nil_iff, List.dropWhile_eq_nil_iff]
  constructor
  · intro h c hc
    have hsplit := List.takeWhile_append_dropWhile isPyWs s.data
    rw [← hsplit] at hc
    rcases List.mem_append.mp hc with h1 | h1
    · exact List.mem_takeWhile_imp h1
    · exact h c (List.mem_reverse.mpr h1)
  · intro h c hc
    have hc' : c ∈ s.data.dropWhile isPyWs := List.mem_reverse.mp hc
    have hsub : c ∈ s.data := by
      have hsplit := List.takeWhile_append_dropWhile isPyWs s.data
      rw [← hsplit]
      exact List.mem_append.mpr (Or.inr hc')
    exact h c hsub

/-- Non-whitespace characters survive trimming. -/
theorem mem_pyStrip_of_not_ws {s : String} {c : Char}
    (hc : c ∈ s.data) (hw : isPyWs c = false) : c ∈ (pyStrip s).data := by
  show c ∈ ((s.data.dropWhile isPyWs).reverse.dropWhile isPyWs).reverse
  rw [List.mem_reverse]
  exact mem_dropWhile_of_not hw
    (List.mem_reverse.mpr (mem_dropWhile_of_not hw hc))

/-- A string with ink does not trim to the empty string. -/
theorem pyStrip_ne_of_hasInk {s : String} (h : hasInk s = true) :
    pyStrip s ≠ "" := by
  intro he
  obtain ⟨c, hc, hw⟩ := List.any_eq_true.mp h
  have := (pyStrip_eq_empty_iff s).mp he c hc
  rw [this] at hw
  cases hw

/-- A string that does not trim to empty has ink. -/
theorem hasInk_of_pyStrip_ne {s : String} (h : pyStrip s ≠ "") :
    hasInk s = true := by
  by_contra hn
  apply h
  rw [pyStrip_eq_empty_iff]
  intro c hc
  by_contra hcw
  exact hn (List.any_eq_true.mpr ⟨c, hc, by simp [Bool.eq_false_iff.mpr hcw]⟩)

/-- The trimmed form of a string with content still has content. -/
theorem pyStrip_pyStrip_ne {s : String} (h : pyStrip s ≠ "") :
    pyStrip (pyStrip s) ≠ "" := by
  obtain ⟨c, hc, hw⟩ := List.any_eq_true.mp (hasInk_of_pyStrip_ne h)
  have hw' : isPyWs c = false := by
    cases hx : isPyWs c
    · rfl
    · rw [hx] at hw; cases hw
  exact pyStrip_ne_of_hasInk
    (List.any_eq_true.mpr ⟨c, mem_pyStrip_of_not_ws hc hw', hw⟩)

/-- Ink is preserved on the left of an append. -/
theorem hasInk_append_left {a : String} (b : String) (h : hasInk a = true) :
    hasInk (a ++ b) = true := by
  obtain ⟨c, hc, hw⟩ := List.any_eq_true.mp h
  refine List.any_eq_true.mpr ⟨c, ?_, hw⟩
  rw [String.data_append]
  exact List.mem_append.mpr (Or.inl hc)

/-- Ink is preserved on the right of an append. -/
theorem hasInk_append_right (a : String) {b : String} (h : hasInk b = true) :
    hasInk (a ++ b) = true := by
  obtain ⟨c, hc, hw⟩ := List.any_eq_true.mp h
  refine List.any_eq_true.mpr ⟨c, ?_, hw⟩
  rw [String.data_append]
  exact List.mem_append.mpr (Or.inr hc)

/-- A member with ink gives the join ink. -/
theorem hasInk_join_of_mem {x : String} (sep : String) :
    ∀ {parts : List String}, x ∈ parts → hasInk x = true →
      hasInk (pyJoinList sep parts) = true := by
  intro parts
  induction parts with
  | nil => intro h; cases h
  | cons y rest ih =>
    intro hx hink
    cases rest with
    | nil =>
      rcases List.mem_cons.mp hx with rfl | h'
      · exact hink
      · cases h'
    | cons z zs =>
      rcases List.mem_cons.mp hx with rfl | h'
      · exact hasInk_append_left _ (hasInk_append_left _ hink)
      · exact hasInk_append_right _ (ih h' hink)

/-- Digit characters are not whitespace. -/
theorem digitChar_not_ws (d : Nat) : isPyWs (digitChar d) = false := by
  unfold digitChar
  split <;> rfl

/-- Every character produced by `natReprCore` is a digit or comes from the
accumulator. -/
theorem natReprCore_not_ws : ∀ (fuel n : Nat) (acc : List Char),
    (∀ c ∈ acc, isPyWs c = false) →
    ∀ c ∈ natReprCore fuel n acc, isPyWs c = false := by
  intro fuel
  induction fuel with
  | zero => intro n acc hacc c hc; exact hacc c hc
  | succ fuel ih =>
    intro n acc hacc c hc
    rw [natReprCore] at hc
    by_cases hq : n / 10 = 0
    · rw [if_pos hq] at hc
      rcases List.mem_cons.mp hc with h1 | h1
      · rw [h1]; exact digitChar_not_ws _
      · exact hacc c h1
    · rw [if_neg hq] at hc
      refine ih (n / 10) _ ?_ c hc
      intro c' hc'
      rcases List.mem_cons.mp hc' with h1 | h1
      · rw [h1]; exact digitChar_not_ws _
      · exact hacc c' h1

/-- `natReprCore` never empties a non-empty accumulator. -/
theorem natReprCore_ne_nil : ∀ (fuel n : Nat) (acc : List Char),
    acc ≠ [] → natReprCore fuel n acc ≠ [] := by
  intro fuel
  induction fuel with
  | zero => intro n acc h; exact h
  | succ fuel ih =>
    intro n acc h
    rw [natReprCore]
    by_cases hq : n / 10 = 0
    · rw [if_pos hq]; simp
    · rw [if_neg hq]
      exact ih (n / 10) _ (by simp)

/-- The decimal rendering of a natural number has ink. -/
theorem hasInk_natRepr (n : Nat) : hasInk (natRepr n) = true := by
  have hne : natReprCore (n + 1) n [] ≠ [] := by
    rw [natReprCore]
    by_cases hq : n / 10 = 0
    · rw [if_pos hq]; simp
    · rw [if_neg hq]
      exact natReprCore_ne_nil n (n / 10) _ (by simp)
  have hall : ∀ c ∈ natReprCore (n + 1) n [], isPyWs c = false :=
    natReprCore_not_ws (n + 1) n [] (by intro c hc; cases hc)
  cases hl : natReprCore (n + 1) n [] with
  | nil => exact absurd hl hne
  | cons c t =>
    refine List.any_eq_true.mpr ⟨c, ?_, ?_⟩
    · show c ∈ natReprCore (n + 1) n []
      rw [hl]; exact List.mem_cons_self c t
    · have := hall c (by rw [hl]; exact List.mem_cons_self c t)
      simp [this]

/-- The decimal rendering of an integer has ink. -/
theorem hasInk_intRepr (i : Int) : hasInk (intRepr i) = true := by
  unfold intRepr
  by_cases hneg : i < 0
  · rw [if_pos hneg]
    exact hasInk_append_right _ (hasInk_natRepr _)
  · rw [if_neg hneg]
    exact hasInk_natRepr _

/-! ### Whitespace-cleanliness of structured values -/

mutual
/-- No whitespace-only string occurs in the value: every string in it is
either empty or keeps content after trimming. -/
def wsClean : Jv → Bool
  | .jnull => true
  | .jbool _ => true
  | .jnum _ => true
  | .jstr s => if s = "" then true else trimNonempty s
  | .jlist xs => wsCleanList xs
  | .jdict kvs => wsCleanDict kvs

/-- Helper of `wsClean` for list elements. -/
def wsCleanList : List Jv → Bool
  | [] => true
  | x :: xs => wsClean x && wsCleanList xs

/-- Helper of `wsClean` for dict values. -/
def wsCleanDict : List (String × Jv) → Bool
  | [] => true
  | kv :: kvs => wsClean kv.2 && wsCleanDict kvs
end

/-- List elements of a whitespace-clean list value are whitespace-clean. -/
theorem wsClean_of_mem_list {xs : List Jv} (h : wsCleanList xs = true) :
    ∀ x ∈ xs, wsClean x = true := by
  induction xs with
  | nil => intro x hx; cases hx
  | cons y ys ih =>
    intro x hx
    rw [wsCleanList, Bool.and_eq_true] at h
    rcases List.mem_cons.mp hx with rfl | hx'
    · exact h.1
    · exact ih h.2 x hx'

/-- Dict values of a whitespace-clean dict value are whitespace-clean. -/
theorem wsClean_of_mem_dict {kvs : List (String × Jv)} (h : wsCleanDict kvs = true) :
    ∀ kv ∈ kvs, wsClean kv.2 = true := by
  induction kvs with
  | nil => intro kv hkv; cases hkv
  | cons e es ih =>
    intro kv hkv
    rw [wsCleanDict, Bool.and_eq_true] at h
    rcases List.mem_cons.mp hkv with rfl | hkv'
    · exact h.1
    · exact ih h.2 kv hkv'

/-- A truthy, whitespace-clean value renders to a string with ink. -/
theorem hasInk_pyStr_of_truthy {v : Jv} (ht : truthy v = true)
    (hw : wsClean v = true) : hasInk (pyStr v) = true := by
  cases v with
  | jnull => exact Bool.noConfusion ht
  | jbool b =>
    cases b
    · exact Bool.noConfusion ht
    · decide
  | jnum n =>
    show hasInk (intRepr n) = true
    exact hasInk_intRepr n
  | jstr s =>
    by_cases hs : s = ""
    · rw [truthy, if_pos hs] at ht; exact Bool.noConfusion ht
    · rw [wsClean, if_neg hs, trimNonempty] at hw
      by_cases hstrip : pyStrip s = ""
      · rw [if_pos hstrip] at hw; exact Bool.noConfusion hw
      · exact hasInk_of_pyStrip_ne hstrip
  | jlist xs =>
    show hasInk ("[" ++ pyJoinList ", " (pyReprList xs) ++ "]") = true
    exact hasInk_append_left _ (hasInk_append_left _ (by decide))
  | jdict kvs =>
    show hasInk ("\x7b" ++ pyJoinList ", " (pyReprDict kvs) ++ "\x7d") = true
    exact hasInk_append_left _ (hasInk_append_left _ (by decide))

/-- A successful `_clean_join` over parts that render with ink when truthy
produces a string with ink. -/
theorem cleanJoin_hasInk {parts : List Jv} {t : String}
    (h : cleanJoin parts = some t)
    (hp : ∀ p ∈ parts, truthy p = true → hasInk (pyStr p) = true) :
    hasInk t = true := by
  unfold cleanJoin at h
  cases hf : parts.filter truthy with
  | nil => rw [hf] at h; exact Option.noConfusion h
  | cons p ps =>
    rw [hf] at h
    simp only [List.map_cons] at h
    have hteq : t = pyJoinList " - " (pyStr p :: ps.map pyStr) :=
      (Option.some.inj h).symm
    have hpmem : p ∈ parts.filter truthy := by rw [hf]; exact List.mem_cons_self p ps
    have hp2 := List.mem_filter.mp hpmem
    rw [hteq]
    exact hasInk_join_of_mem " - " (List.mem_cons_self _ _) (hp p hp2.1 hp2.2)

/-- A successful lookup returns one of the dict's entries. -/
theorem dictGet_mem {d : List (String × Jv)} {k : String} {v : Jv}
    (h : dictGet d k = some v) : (k, v) ∈ d := by
  induction d with
  | nil => exact Option.noConfusion h
  | cons kv rest ih =>
    obtain ⟨k', v'⟩ := kv
    rw [dictGet] at h
    by_cases hk : k' = k
    · rw [if_pos hk] at h
      have hv2 := Option.some.inj h
      subst hk
      subst hv2
      exact List.mem_cons_self _ _
    · rw [if_neg hk] at h
      exact List.mem_cons_of_mem _ (ih h)

/-- The `obj.get(key) or ""` pattern yields a value that renders with ink
whenever it is truthy, provided the dict's values are whitespace-clean. -/
theorem pyOr_field_ink {obj : List (String × Jv)} (k : String)
    (hv : ∀ kv ∈ obj, wsClean kv.2 = true) :
    truthy (pyOr (dictGetD obj k .jnull) (.jstr "")) = true →
    hasInk (pyStr (pyOr (dictGetD obj k .jnull) (.jstr ""))) = true := by
  intro ht
  unfold pyOr at ht ⊢
  cases hg : dictGet obj k with
  | none =>
    rw [dictGetD, hg] at ht ⊢
    simp only [Option.getD] at ht ⊢
    rw [truthy] at ht
    rw [if_neg (by exact Bool.noConfusion)] at ht
    exact Bool.noConfusion ht
  | some w =>
    rw [dictGetD, hg] at ht ⊢
    simp only [Option.getD] at ht ⊢
    by_cases htw : truthy w = true
    · rw [if_pos htw] at ht ⊢
      exact hasInk_pyStr_of_truthy htw (hv (k, w) (dictGet_mem hg))
    · rw [if_neg htw] at ht
      rw [truthy] at ht
      simp at ht

/-- A non-`None` text synthesized by `extract_text_from_object` from an
object with whitespace-clean values has ink: every candidate part either
comes from the object (whitespace-clean and truthy) or carries a literal
label such as `"GPA: "`, `"by "` or `"Technologies: "`. -/
theorem extract_text_ink {obj : List (String × Jv)} {sec : String} {t : String}
    (h : extract_text_from_object obj sec = .ok (some t))
    (hv : ∀ kv ∈ obj, wsClean kv.2 = true) : hasInk t = true := by
  unfold extract_text_from_object at h
  by_cases h1 : sec = "experience"
  · rw [if_pos h1] at h
    dsimp only at h
    by_cases hb : truthy (pyOr (dictGetD obj "bullets" .jnull) (.jlist [])) = true
    · rw [if_pos hb] at h
      exact Option.noConfusion (Except.ok.inj h)
    · rw [if_neg hb] at h
      refine cleanJoin_hasInk (Except.ok.inj h) ?_
      intro p hpmem htp
      simp only [List.mem_cons, List.not_mem_nil, or_false] at hpmem
      rcases hpmem with rfl | rfl | rfl
      · exact pyOr_field_ink "company" hv htp
      · exact pyOr_field_ink "title" hv htp
      · exact pyOr_field_ink "location" hv htp
  · rw [if_neg h1] at h
    by_cases h2 : sec = "projects"
    · rw [if_pos h2] at h
      dsimp only at h
      by_cases ht : truthy (pyOr (dictGetD obj "technologies" .jnull) (.jlist [])) = true
      · rw [if_pos ht] at h
        cases hit : pyIter (pyOr (dictGetD obj "technologies" .jnull) (.jlist [])) with
        | error e => rw [hit] at h; exact Except.noConfusion h
        | ok ts =>
          rw [hit] at h
          simp only [except_bind_ok] at h
          refine cleanJoin_hasInk (Except.ok.inj h) ?_
          intro p hpmem htp
          rcases List.mem_append.mp hpmem with hpm | hpm
          · by_cases hd : truthy (pyOr (dictGetD obj "description" .jnull) (.jstr "")) = true
            · rw [if_pos hd] at hpm
              rcases List.mem_append.mp hpm with hpm2 | hpm2
              · by_cases hn : truthy (pyOr (dictGetD obj "name" .jnull) (.jstr "")) = true
                · rw [if_pos hn] at hpm2
                  simp only [List.mem_singleton] at hpm2
                  subst hpm2
                  exact pyOr_field_ink "name" hv htp
                · rw [if_neg hn] at hpm2
                  cases hpm2
              · simp only [List.mem_singleton] at hpm2
                subst hpm2
                exact pyOr_field_ink "description" hv htp
            · rw [if_neg hd] at hpm
              by_cases hn : truthy (pyOr (dictGetD obj "name" .jnull) (.jstr "")) = true
              · rw [if_pos hn] at hpm
                simp only [List.mem_singleton] at hpm
                subst hpm
                exact pyOr_field_ink "name" hv htp
              · rw [if_neg hn] at hpm
                cases hpm
          · simp only [List.mem_singleton] at hpm
            subst hpm
            show hasInk ("Technologies: " ++ _) = true
            exact hasInk_append_left _ (by decide)
      · rw [if_neg ht] at h
        refine cleanJoin_hasInk (Except.ok.inj h) ?_
        intro p hpmem htp
        by_cases hd : truthy (pyOr (dictGetD obj "description" .jnull) (.jstr "")) = true
        · rw [if_pos hd] at hpmem
          rcases List.mem_append.mp hpmem with hpm2 | hpm2
          · by_cases hn : truthy (pyOr (dictGetD obj "name" .jnull) (.jstr "")) = true
            · rw [if_pos hn] at hpm2
              simp only [List.mem_singleton] at hpm2
              subst hpm2
              exact pyOr_field_ink "name" hv htp
            · rw [if_neg hn] at hpm2
              cases hpm2
          · simp only [List.mem_singleton] at hpm2
            subst hpm2
            exact pyOr_field_ink "description" hv htp
        · rw [if_neg hd] at hpmem
          by_cases hn : truthy (pyOr (dictGetD obj "name" .jnull) (.jstr "")) = true
          · rw [if_pos hn] at hpmem
            simp only [List.mem_singleton] at hpmem
            subst hpmem
            exact pyOr_field_ink "name" hv htp
          · rw [if_neg hn] at hpmem
            cases hpmem
    · rw [if_neg h2] at h
      by_cases h3 : sec = "education"
      · rw [if_pos h3] at h
        dsimp only at h
        by_cases hg : truthy (pyOr (dictGetD obj "gpa" .jnull) (.jstr "")) = true
        · rw [if_pos hg] at h
          refine cleanJoin_hasInk (Except.ok.inj h) ?_
          intro p hpmem htp
          rcases List.mem_append.mp hpmem with hpm | hpm
          · simp only [List.mem_cons, List.not_mem_nil, or_false] at hpm
            rcases hpm with rfl | rfl | rfl
            · exact pyOr_field_ink "institution" hv htp
            · exact pyOr_field_ink "degree" hv htp
            · exact pyOr_field_ink "field" hv htp
          · simp only [List.mem_singleton] at hpm
            subst hpm
            show hasInk ("GPA: " ++ _) = true
            exact hasInk_append_left _ (by decide)
        · rw [if_neg hg] at h
          refine cleanJoin_hasInk (Except.ok.inj h) ?_
          intro p hpmem htp
          simp only [List.mem_cons, List.not_mem_nil, or_false] at hpmem
          rcases hpmem with rfl | rfl | rfl
          · exact pyOr_field_ink "institution" hv htp
          · exact pyOr_field_ink "degree" hv htp
          · exact pyOr_field_ink "field" hv htp
      · rw [if_neg h3] at h
        by_cases h4 : sec = "leadership"
        · rw [if_pos h4] at h
          dsimp only at h
          refine cleanJoin_hasInk (Except.ok.inj h) ?_
          intro p hpmem htp
          simp only [List.mem_cons, List.not_mem_nil, or_false] at hpmem
          rcases hpmem with rfl | rfl | rfl
          · exact pyOr_field_ink "role" hv htp
          · exact pyOr_field_ink "organization" hv htp
          · exact pyOr_field_ink "description" hv htp
        · rw [if_neg h4] at h
          by_cases h5 : sec = "certifications"
          · rw [if_pos h5] at h
            dsimp only at h
            refine cleanJoin_hasInk (Except.ok.inj h) ?_
            intro p hpmem htp
            by_cases hdt : truthy (pyOr (dictGetD obj "date" .jnull) (.jstr "")) = true
            · rw [if_pos hdt] at hpmem
              rcases List.mem_append.mp hpmem with hpm | hpm
              · by_cases hi : truthy (pyOr (dictGetD obj "issuer" .jnull) (.jstr "")) = true
                · rw [if_pos hi] at hpm
                  rcases List.mem_append.mp hpm with hpm2 | hpm2
                  · simp only [List.mem_singleton] at hpm2
                    subst hpm2
                    exact pyOr_field_ink "name" hv htp
                  · simp only [List.mem_singleton] at hpm2
                    subst hpm2
                    show hasInk ("by " ++ _) = true
                    exact hasInk_append_left _ (by decide)
                · rw [if_neg hi] at hpm
                  simp only [List.mem_singleton] at hpm
                  subst hpm
                  exact pyOr_field_ink "name" hv htp
              · simp only [List.mem_singleton] at hpm
                subst hpm
                exact pyOr_field_ink "date" hv htp
            · rw [if_neg hdt] at hpmem
              by_cases hi : truthy (pyOr (dictGetD obj "issuer" .jnull) (.jstr "")) = true
              · rw [if_pos hi] at hpmem
                rcases List.mem_append.mp hpmem with hpm2 | hpm2
                · simp only [List.mem_singleton] at hpm2
                  subst hpm2
                  exact pyOr_field_ink "name" hv htp
                · simp only [List.mem_singleton] at hpm2
                  subst hpm2
                  show hasInk ("by " ++ _) = true
                  exact hasInk_append_left _ (by decide)
              · rw [if_neg hi] at hpmem
                simp only [List.mem_singleton] at hpmem
                subst hpmem
                exact pyOr_field_ink "name" hv htp
          · rw [if_neg h5] at h
            have hteq : pyStr (.jdict obj) = t := by
              have := Except.ok.inj h
              exact Option.some.inj this
            rw [← hteq]
            show hasInk ("\x7b" ++ pyJoinList ", " (pyReprDict obj) ++ "\x7d") = true
            exact hasInk_append_left _ (hasInk_append_left _ (by decide))

/-! ### Skills-section hypotheses and lemmas -/

/-- A well-formed skills item: a string with content after trimming. -/
def goodSkillVal : Jv → Bool
  | .jstr s => trimNonempty s
  | _ => false

/-- Every category list of a dict-shaped skills section holds only
well-formed items. -/
def skillsSectionOk : Jv → Bool
  | .jdict kvs => kvs.all (fun kv =>
      match kv.2 with
      | .jlist xs => xs.all goodSkillVal
      | _ => true)
  | _ => true

/-- The skills hypothesis over a whole record. -/
def skillsOk (sections : List (String × Jv)) : Bool :=
  sections.all (fun nv => if nv.1 = "skills" then skillsSectionOk nv.2 else true)

/-- Elements accumulated by the `skill_parts` fold come from the category
lists. -/
theorem skillParts_mem_aux (x : Jv) : ∀ (kvs : List (String × Jv))
    (acc : List Jv),
    x ∈ kvs.foldl (fun acc kv =>
      match kv.2 with
      | .jlist xs => if truthy (.jlist xs) then acc ++ xs else acc
      | _ => acc) acc →
    x ∈ acc ∨ ∃ kv ∈ kvs, ∃ xs, kv.2 = .jlist xs ∧ x ∈ xs := by
  intro kvs
  induction kvs with
  | nil => intro acc h; exact Or.inl h
  | cons kv rest ih =>
    obtain ⟨k0, v0⟩ := kv
    intro acc h
    rw [List.foldl_cons] at h
    rcases ih _ h with hacc | ⟨kv', hkv', xs, hxs, hx⟩
    · cases v0 with
      | jlist xs =>
        have hacc' : x ∈ (if truthy (Jv.jlist xs) = true then acc ++ xs else acc) :=
          hacc
        by_cases htl : truthy (.jlist xs) = true
        · rw [if_pos htl] at hacc'
          rcases List.mem_append.mp hacc' with h1 | h1
          · exact Or.inl h1
          · exact Or.inr ⟨(k0, .jlist xs), List.mem_cons_self _ _, xs, rfl, h1⟩
        · rw [if_neg htl] at hacc'
          exact Or.inl hacc'
      | jnull => exact Or.inl hacc
      | jbool b => exact Or.inl hacc
      | jnum n => exact Or.inl hacc
      | jstr s => exact Or.inl hacc
      | jdict d => exact Or.inl hacc
    · exact Or.inr ⟨kv', List.mem_cons_of_mem _ hkv', xs, hxs, hx⟩

/-- Elements of `skillParts` come from the category lists. -/
theorem skillParts_mem {x : Jv} {kvs : List (String × Jv)}
    (h : x ∈ skillParts kvs) :
    ∃ kv ∈ kvs, ∃ xs, kv.2 = .jlist xs ∧ x ∈ xs := by
  rcases skillParts_mem_aux x kvs [] h with h1 | h1
  · cases h1
  · exact h1

/-- A successful string-list conversion starts with the head string. -/
theorem strListOfJv_cons {s : String} {rest : List Jv} {out : List String}
    (h : strListOfJv (.jstr s :: rest) = .ok out) :
    ∃ tail, strListOfJv rest = .ok tail ∧ out = s :: tail := by
  rw [strListOfJv] at h
  cases hr : strListOfJv rest with
  | error e => rw [hr] at h; exact Except.noConfusion h
  | ok tail =>
    rw [hr] at h
    simp only [except_bind_ok] at h
    exact ⟨tail, rfl, (Except.ok.inj h).symm⟩

/-- Chunks emitted by the skills branch have content after trimming when
the section satisfies the skills hypothesis. -/
theorem skillsDict_ink {cv : String} {kvs : List (String × Jv)} {cs : List Chunk}
    (hok : skillsSectionOk (.jdict kvs) = true)
    (h : skillsDict cv kvs = .ok cs) :
    ∀ c ∈ cs, pyStrip c.text ≠ "" := by
  unfold skillsDict at h
  cases hsp : skillParts kvs with
  | nil =>
    rw [hsp] at h
    have : ([] : List Chunk) = cs := Except.ok.inj h
    rw [← this]
    intro c hc
    cases hc
  | cons p ps =>
    rw [hsp] at h
    dsimp only at h
    cases hj : pyJoinStrs ", " (p :: ps) with
    | error e => rw [hj] at h; exact Except.noConfusion h
    | ok txt =>
      rw [hj] at h
      simp only [except_bind_ok] at h
      have hcs : cs = [⟨cv, "skills", txt,
          [("type", .jstr "skills"),
           ("categories", .jlist (kvs.map (fun kv => .jstr kv.1)))]⟩] :=
        (Except.ok.inj h).symm
      have hpmem : p ∈ skillParts kvs := by
        rw [hsp]; exact List.mem_cons_self _ _
      obtain ⟨kv, hkv, xs, hxs, hx⟩ := skillParts_mem hpmem
      have hgood : goodSkillVal p = true := by
        have hall := List.all_eq_true.mp hok kv hkv
        rw [hxs] at hall
        exact List.all_eq_true.mp hall p hx
      obtain ⟨s, rfl, hs⟩ : ∃ s, p = .jstr s ∧ trimNonempty s = true := by
        cases p with
        | jstr s => exact ⟨s, rfl, hgood⟩
        | jnull => exact Bool.noConfusion hgood
        | jbool b => exact Bool.noConfusion hgood
        | jnum n => exact Bool.noConfusion hgood
        | jlist l => exact Bool.noConfusion hgood
        | jdict l => exact Bool.noConfusion hgood
      unfold pyJoinStrs at hj
      obtain ⟨tail, htail, hout⟩ : ∃ tail, strListOfJv ps = .ok tail ∧
          ∃ out, strListOfJv (.jstr s :: ps) = .ok out ∧ out = s :: tail := by
        cases hr : strListOfJv (.jstr s :: ps) with
        | error e => rw [hr] at hj; exact Except.noConfusion hj
        | ok out =>
          obtain ⟨tail, ht, ho⟩ := strListOfJv_cons hr
          exact ⟨tail, ht, out, rfl, ho⟩
      obtain ⟨out, hout2, houteq⟩ := hout
      rw [hout2] at hj
      simp only [except_bind_ok] at hj
      have htxt : txt = pyJoinList ", " (s :: tail) := by
        rw [← (Except.ok.inj hj)]
        rw [houteq]
      have hsne : pyStrip s ≠ "" := by
        rw [trimNonempty] at hs
        by_cases hx2 : pyStrip s = ""
        · rw [if_pos hx2] at hs; exact Bool.noConfusion hs
        · exact hx2
      have hink : hasInk txt = true := by
        rw [htxt]
        exact hasInk_join_of_mem ", " (List.mem_cons_self _ _)
          (hasInk_of_pyStrip_ne hsne)
      intro c hc
      rw [hcs] at hc
      simp only [List.mem_singleton] at hc
      rw [hc]
      exact pyStrip_ne_of_hasInk hink

/-- Summary chunks have content after trimming. -/
theorem summaryDict_ink {cv : String} {d : List (String × Jv)} {cs : List Chunk}
    (h : summaryDict cv d = .ok cs) : ∀ c ∈ cs, pyStrip c.text ≠ "" := by
  unfold summaryDict at h
  by_cases ht : truthy ((dictGet d "text").getD .jnull) = true
  · rw [if_neg (by rw [ht]; exact Bool.noConfusion)] at h
    cases hst : (dictGet d "text").getD .jnull with
    | jstr s =>
      rw [hst] at h
      dsimp only at h
      by_cases hs : pyStrip s = ""
      · rw [if_pos hs] at h
        rw [← Except.ok.inj h]
        intro c hc
        cases hc
      · rw [if_neg hs] at h
        rw [← Except.ok.inj h]
        intro c hc
        simp only [List.mem_singleton] at hc
        rw [hc]
        exact pyStrip_pyStrip_ne hs
    | jnull => rw [hst] at h; exact Except.noConfusion h
    | jbool b => rw [hst] at h; exact Except.noConfusion h
    | jnum n => rw [hst] at h; exact Except.noConfusion h
    | jlist l => rw [hst] at h; exact Except.noConfusion h
    | jdict l => rw [hst] at h; exact Except.noConfusion h
  · rw [if_pos (Bool.eq_false_iff.mpr ht)] at h
    rw [← Except.ok.inj h]
    intro c hc
    cases hc

/-- Chunks emitted for a list-valued section have content after trimming,
when the list elements are whitespace-clean. -/
theorem chunkListItems_ink {cv sec : String} : ∀ (items : List Jv) (idx : Nat)
    (cs : List Chunk), (∀ x ∈ items, wsClean x = true) →
    chunkListItems cv sec idx items = .ok cs →
    ∀ c ∈ cs, pyStrip c.text ≠ "" := by
  intro items
  induction items with
  | nil =>
    intro idx cs hv h
    rw [← Except.ok.inj h]
    intro c hc
    cases hc
  | cons item rest ih =>
    intro idx cs hv h
    have hvrest : ∀ x ∈ rest, wsClean x = true :=
      fun x hx => hv x (List.mem_cons_of_mem _ hx)
    cases item with
    | jdict d =>
      rw [chunkListItems] at h
      cases hext : extract_text_from_object d sec with
      | error e =>
        rw [hext] at h
        exact Except.noConfusion h
      | ok t? =>
        rw [hext] at h
        simp only [except_bind_ok] at h
        cases t? with
        | none =>
          dsimp only at h
          simp only [except_pure_eq, except_bind_ok] at h
          cases hrec : chunkListItems cv sec (idx + 1) rest with
          | error e => rw [hrec] at h; exact Except.noConfusion h
          | ok cs' =>
            rw [hrec] at h
            simp only [except_bind_ok] at h
            rw [← Except.ok.inj h]
            intro c hc
            simp only [List.nil_append] at hc
            exact ih (idx + 1) cs' hvrest hrec c hc
        | some t =>
          dsimp only at h
          by_cases hte : t = ""
          · rw [if_pos hte] at h
            simp only [except_pure_eq, except_bind_ok] at h
            cases hrec : chunkListItems cv sec (idx + 1) rest with
            | error e => rw [hrec] at h; exact Except.noConfusion h
            | ok cs' =>
              rw [hrec] at h
              simp only [except_bind_ok] at h
              rw [← Except.ok.inj h]
              intro c hc
              simp only [List.nil_append] at hc
              exact ih (idx + 1) cs' hvrest hrec c hc
          · rw [if_neg hte] at h
            simp only [except_pure_eq, except_bind_ok] at h
            cases hrec : chunkListItems cv sec (idx + 1) rest with
            | error e => rw [hrec] at h; exact Except.noConfusion h
            | ok cs' =>
              rw [hrec] at h
              simp only [except_bind_ok] at h
              rw [← Except.ok.inj h]
              intro c hc
              rcases List.mem_cons.mp hc with rfl | hc'
              · show pyStrip t ≠ ""
                have hwd : ∀ kv ∈ d, wsClean kv.2 = true := by
                  have := hv (.jdict d) (List.mem_cons_self _ _)
                  exact wsClean_of_mem_dict this
                exact pyStrip_ne_of_hasInk (extract_text_ink hext hwd)
              · exact ih (idx + 1) cs' hvrest hrec c hc'
    | jstr s =>
      rw [chunkListItems] at h
      by_cases hs : pyStrip s = ""
      · rw [if_pos hs] at h
        simp only [except_pure_eq, except_bind_ok] at h
        cases hrec : chunkListItems cv sec (idx + 1) rest with
        | error e => rw [hrec] at h; exact Except.noConfusion h
        | ok cs' =>
          rw [hrec] at h
          simp only [except_bind_ok] at h
          rw [← Except.ok.inj h]
          intro c hc
          simp only [List.nil_append] at hc
          exact ih (idx + 1) cs' hvrest hrec c hc
      · rw [if_neg hs] at h
        simp only [except_pure_eq, except_bind_ok] at h
        cases hrec : chunkListItems cv sec (idx + 1) rest with
        | error e => rw [hrec] at h; exact Except.noConfusion h
        | ok cs' =>
          rw [hrec] at h
          simp only [except_bind_ok] at h
          rw [← Except.ok.inj h]
          intro c hc
          rcases List.mem_cons.mp hc with rfl | hc'
          · show pyStrip (pyStrip s) ≠ ""
            exact pyStrip_pyStrip_ne hs
          · exact ih (idx + 1) cs' hvrest hrec c hc'
    | jnull =>
      rw [chunkListItems] at h
      case _ =>
        simp only [except_pure_eq, except_bind_ok] at h
        cases hrec : chunkListItems cv sec (idx + 1) rest with
        | error e => rw [hrec] at h; exact Except.noConfusion h
        | ok cs' =>
          rw [hrec] at h
          simp only [except_bind_ok] at h
          rw [← Except.ok.inj h]
          intro c hc
          simp only [List.nil_append] at hc
          exact ih (idx + 1) cs' hvrest hrec c hc
      all_goals intro _ hx2
      all_goals exact Jv.noConfusion hx2
    | jbool b =>
      rw [chunkListItems] at h
      case _ =>
        simp only [except_pure_eq, except_bind_ok] at h
        cases hrec : chunkListItems cv sec (idx + 1) rest with
        | error e => rw [hrec] at h; exact Except.noConfusion h
        | ok cs' =>
          rw [hrec] at h
          simp only [except_bind_ok] at h
          rw [← Except.ok.inj h]
          intro c hc
          simp only [List.nil_append] at hc
          exact ih (idx + 1) cs' hvrest hrec c hc
      all_goals intro _ hx2
      all_goals exact Jv.noConfusion hx2
    | jnum n =>
      rw [chunkListItems] at h
      case _ =>
        simp only [except_pure_eq, except_bind_ok] at h
        cases hrec : chunkListItems cv sec (idx + 1) rest with
        | error e => rw [hrec] at h; exact Except.noConfusion h
        | ok cs' =>
          rw [hrec] at h
          simp only [except_bind_ok] at h
          rw [← Except.ok.inj h]
          intro c hc
          simp only [List.nil_append] at hc
          exact ih (idx + 1) cs' hvrest hrec c hc
      all_goals intro _ hx2
      all_goals exact Jv.noConfusion hx2
    | jlist l =>
      rw [chunkListItems] at h
      case _ =>
        simp only [except_pure_eq, except_bind_ok] at h
        cases hrec : chunkListItems cv sec (idx + 1) rest with
        | error e => rw [hrec] at h; exact Except.noConfusion h
        | ok cs' =>
          rw [hrec] at h
          simp only [except_bind_ok] at h
          rw [← Except.ok.inj h]
          intro c hc
          simp only [List.nil_append] at hc
          exact ih (idx + 1) cs' hvrest hrec c hc
      all_goals intro _ hx2
      all_goals exact Jv.noConfusion hx2

/-- Chunks from the generic list/string branches have content after
trimming, for whitespace-clean section data. -/
theorem genericTail_ink {cv sec : String} {data : Jv} {cs : List Chunk}
    (hws : wsClean data = true) (h : genericTail cv sec data = .ok cs) :
    ∀ c ∈ cs, pyStrip c.text ≠ "" := by
  cases data with
  | jlist items =>
    exact chunkListItems_ink items 0 cs (wsClean_of_mem_list hws) h
  | jstr s =>
    unfold genericTail at h
    dsimp only at h
    by_cases hs : pyStrip s = ""
    · rw [if_pos hs] at h
      rw [← Except.ok.inj h]
      intro c hc
      cases hc
    · rw [if_neg hs] at h
      rw [← Except.ok.inj h]
      intro c hc
      simp only [List.mem_singleton] at hc
      rw [hc]
      exact pyStrip_pyStrip_ne hs
  | jnull =>
    rw [← Except.ok.inj h]; intro c hc; cases hc
  | jbool b =>
    rw [← Except.ok.inj h]; intro c hc; cases hc
  | jnum n =>
    rw [← Except.ok.inj h]; intro c hc; cases hc
  | jdict d =>
    rw [← Except.ok.inj h]; intro c hc; cases hc

/-- Chunks from one section of the generic pass have content after
trimming, under the whitespace and skills hypotheses. -/
theorem chunkSection_ink {cv sec : String} {data : Jv} {cs : List Chunk}
    (hws : wsClean data = true)
    (hsk : sec = "skills" → skillsSectionOk data = true)
    (h : chunkSection cv sec data = .ok cs) :
    ∀ c ∈ cs, pyStrip c.text ≠ "" := by
  unfold chunkSection at h
  by_cases h0 : truthy data = false
  · rw [if_pos h0] at h
    rw [← Except.ok.inj h]
    intro c hc
    cases hc
  · rw [if_neg h0] at h
    by_cases h1 : sec = "summary"
    · rw [if_pos h1] at h
      cases data with
      | jdict d => exact summaryDict_ink h
      | jnull => exact genericTail_ink hws h
      | jbool b => exact genericTail_ink hws h
      | jnum n => exact genericTail_ink hws h
      | jstr s => exact genericTail_ink hws h
      | jlist l => exact genericTail_ink hws h
    · rw [if_neg h1] at h
      by_cases h2 : sec = "contact"
      · rw [if_pos h2] at h
        rw [← Except.ok.inj h]
        intro c hc
        cases hc
      · rw [if_neg h2] at h
        by_cases h3 : sec = "experience"
        · rw [if_pos h3] at h
          rw [← Except.ok.inj h]
          intro c hc
          cases hc
        · rw [if_neg h3] at h
          by_cases h4 : sec = "projects"
          · rw [if_pos h4] at h
            rw [← Except.ok.inj h]
            intro c hc
            cases hc
          · rw [if_neg h4] at h
            by_cases h5 : sec = "skills"
            · rw [if_pos h5] at h
              cases data with
              | jdict kvs => exact skillsDict_ink (hsk h5) h
              | jnull => exact genericTail_ink hws h
              | jbool b => exact genericTail_ink hws h
              | jnum n => exact genericTail_ink hws h
              | jstr s => exact genericTail_ink hws h
              | jlist l => exact genericTail_ink hws h
            · rw [if_neg h5] at h
              exact genericTail_ink hws h

/-- Chunks from the whole generic pass have content after trimming, under
the whitespace and skills hypotheses. -/
theorem chunk_structured_sections_ink {cv : String} :
    ∀ (sections : List (String × Jv)) (cs : List Chunk),
    (∀ nv ∈ sections, wsClean nv.2 = true) →
    skillsOk sections = true →
    chunk_structured_sections sections cv = .ok cs →
    ∀ c ∈ cs, pyStrip c.text ≠ "" := by
  intro sections
  induction sections with
  | nil =>
    intro cs _ _ h
    rw [← Except.ok.inj h]
    intro c hc
    cases hc
  | cons nv rest ih =>
    intro cs hws hsk h
    obtain ⟨n, v⟩ := nv
    rw [chunk_structured_sections] at h
    cases hsec : chunkSection cv n v with
    | error e => rw [hsec] at h; exact Except.noConfusion h
    | ok here =>
      rw [hsec] at h
      simp only [except_bind_ok] at h
      cases hrest : chunk_structured_sections rest cv with
      | error e => rw [hrest] at h; exact Except.noConfusion h
      | ok there =>
        rw [hrest] at h
        simp only [except_bind_ok] at h
        rw [← Except.ok.inj h]
        have hws1 : wsClean v = true := hws (n, v) (List.mem_cons_self _ _)
        have hsk1 : n = "skills" → skillsSectionOk v = true := by
          intro hn
          have := List.all_eq_true.mp hsk (n, v) (List.mem_cons_self _ _)
          rw [if_pos hn] at this
          exact this
        have hskrest : skillsOk rest = true := by
          rw [skillsOk, List.all_eq_true]
          intro x hx
          exact List.all_eq_true.mp hsk x (List.mem_cons_of_mem _ hx)
        have hwsrest : ∀ nv ∈ rest, wsClean nv.2 = true :=
          fun x hx => hws x (List.mem_cons_of_mem _ hx)
        intro c hc
        rcases List.mem_append.mp hc with hc' | hc'
        · exact chunkSection_ink hws1 hsk1 hsec c hc'
        · exact ih there hwsrest hskrest hrest c hc'

/-- Experience bullet chunks carry the `" - "` separator and therefore
always have content after trimming. -/
theorem expBulletLoop_ink {cv : String} {company title : Jv}
    {d : List (String × Jv)} {i : Nat} :
    ∀ (bs : List Jv) (j : Nat) (cs : List Chunk),
    expBulletLoop cv company title d i j bs = .ok cs →
    ∀ c ∈ cs, pyStrip c.text ≠ "" := by
  intro bs
  induction bs with
  | nil =>
    intro j cs h
    rw [← Except.ok.inj h]
    intro c hc
    cases hc
  | cons b rest ih =>
    intro j cs h
    cases b with
    | jstr s =>
      rw [expBulletLoop.eq_def] at h
      dsimp only at h
      by_cases htb : truthy (Jv.jstr s) = false
      · rw [if_pos htb] at h
        simp only [except_pure_eq, except_bind_ok] at h
        cases hrec : expBulletLoop cv company title d i (j + 1) rest with
        | error e => rw [hrec] at h; exact Except.noConfusion h
        | ok cs' =>
          rw [hrec] at h
          simp only [except_bind_ok] at h
          rw [← Except.ok.inj h]
          intro c hc
          simp only [List.nil_append] at hc
          exact ih (j + 1) cs' hrec c hc
      · rw [if_neg htb] at h
        by_cases hs : pyStrip s = ""
        · rw [if_pos hs] at h
          simp only [except_pure_eq, except_bind_ok] at h
          cases hrec : expBulletLoop cv company title d i (j + 1) rest with
          | error e => rw [hrec] at h; exact Except.noConfusion h
          | ok cs' =>
            rw [hrec] at h
            simp only [except_bind_ok] at h
            rw [← Except.ok.inj h]
            intro c hc
            simp only [List.nil_append] at hc
            exact ih (j + 1) cs' hrec c hc
        · rw [if_neg hs] at h
          simp only [except_pure_eq, except_bind_ok] at h
          cases hrec : expBulletLoop cv company title d i (j + 1) rest with
          | error e => rw [hrec] at h; exact Except.noConfusion h
          | ok cs' =>
            rw [hrec] at h
            simp only [except_bind_ok] at h
            rw [← Except.ok.inj h]
            intro c hc
            rcases List.mem_cons.mp hc with rfl | hc'
            · show pyStrip (pyStr company ++ " - " ++ pyStrip s) ≠ ""
              exact pyStrip_ne_of_hasInk
                (hasInk_append_left _ (hasInk_append_right _ (by decide)))
            · exact ih (j + 1) cs' hrec c hc'
    | jnull =>
      rw [expBulletLoop.eq_def] at h
      dsimp only at h
      case _ =>
        by_cases htb : truthy Jv.jnull = false
        · rw [if_pos htb] at h
          simp only [except_pure_eq, except_bind_ok] at h
          cases hrec : expBulletLoop cv company title d i (j + 1) rest with
          | error e => rw [hrec] at h; exact Except.noConfusion h
          | ok cs' =>
            rw [hrec] at h
            simp only [except_bind_ok] at h
            rw [← Except.ok.inj h]
            intro c hc
            simp only [List.nil_append] at hc
            exact ih (j + 1) cs' hrec c hc
        · rw [if_neg htb] at h
          simp only [except_bind_err] at h
          exact Except.noConfusion h
    | jbool bb =>
      rw [expBulletLoop.eq_def] at h
      dsimp only at h
      case _ =>
        by_cases htb : truthy (Jv.jbool bb) = false
        · rw [if_pos htb] at h
          simp only [except_pure_eq, except_bind_ok] at h
          cases hrec : expBulletLoop cv company title d i (j + 1) rest with
          | error e => rw [hrec] at h; exact Except.noConfusion h
          | ok cs' =>
            rw [hrec] at h
            simp only [except_bind_ok] at h
            rw [← Except.ok.inj h]
            intro c hc
            simp only [List.nil_append] at hc
            exact ih (j + 1) cs' hrec c hc
        · rw [if_neg htb] at h
          simp only [except_bind_err] at h
          exact Except.noConfusion h
    | jnum n =>
      rw [expBulletLoop.eq_def] at h
      dsimp only at h
      case _ =>
        by_cases htb : truthy (Jv.jnum n) = false
        · rw [if_pos htb] at h
          simp only [except_pure_eq, except_bind_ok] at h
          cases hrec : expBulletLoop cv company title d i (j + 1) rest with
          | error e => rw [hrec] at h; exact Except.noConfusion h
          | ok cs' =>
            rw [hrec] at h
            simp only [except_bind_ok] at h
            rw [← Except.ok.inj h]
            intro c hc
            simp only [List.nil_append] at hc
            exact ih (j + 1) cs' hrec c hc
        · rw [if_neg htb] at h
          simp only [except_bind_err] at h
          exact Except.noConfusion h
    | jlist l =>
      rw [expBulletLoop.eq_def] at h
      dsimp only at h
      case _ =>
        by_cases htb : truthy (Jv.jlist l) = false
        · rw [if_pos htb] at h
          simp only [except_pure_eq, except_bind_ok] at h
          cases hrec : expBulletLoop cv company title d i (j + 1) rest with
          | error e => rw [hrec] at h; exact Except.noConfusion h
          | ok cs' =>
            rw [hrec] at h
            simp only [except_bind_ok] at h
            rw [← Except.ok.inj h]
            intro c hc
            simp only [List.nil_append] at hc
            exact ih (j + 1) cs' hrec c hc
        · rw [if_neg htb] at h
          simp only [except_bind_err] at h
          exact Except.noConfusion h
    | jdict dd =>
      rw [expBulletLoop.eq_def] at h
      dsimp only at h
      case _ =>
        by_cases htb : truthy (Jv.jdict dd) = false
        · rw [if_pos htb] at h
          simp only [except_pure_eq, except_bind_ok] at h
          cases hrec : expBulletLoop cv company title d i (j + 1) rest with
          | error e => rw [hrec] at h; exact Except.noConfusion h
          | ok cs' =>
            rw [hrec] at h
            simp only [except_bind_ok] at h
            rw [← Except.ok.inj h]
            intro c hc
            simp only [List.nil_append] at hc
            exact ih (j + 1) cs' hrec c hc
        · rw [if_neg htb] at h
          simp only [except_bind_err] at h
          exact Except.noConfusion h

/-- Projects bullet chunks carry the `" - "` separator and therefore
always have content after trimming. -/
theorem projBulletLoop_ink {cv : String} {name : Jv}
    {d : List (String × Jv)} {i : Nat} :
    ∀ (bs : List Jv) (j : Nat) (cs : List Chunk),
    projBulletLoop cv name d i j bs = .ok cs →
    ∀ c ∈ cs, pyStrip c.text ≠ "" := by
  intro bs
  induction bs with
  | nil =>
    intro j cs h
    rw [← Except.ok.inj h]
    intro c hc
    cases hc
  | cons b rest ih =>
    intro j cs h
    cases b with
    | jstr s =>
      rw [projBulletLoop.eq_def] at h
      dsimp only at h
      by_cases htb : truthy (Jv.jstr s) = false
      · rw [if_pos htb] at h
        simp only [except_pure_eq, except_bind_ok] at h
        cases hrec : projBulletLoop cv name d i (j + 1) rest with
        | error e => rw [hrec] at h; exact Except.noConfusion h
        | ok cs' =>
          rw [hrec] at h
          simp only [except_bind_ok] at h
          rw [← Except.ok.inj h]
          intro c hc
          simp only [List.nil_append] at hc
          exact ih (j + 1) cs' hrec c hc
      · rw [if_neg htb] at h
        by_cases hs : pyStrip s = ""
        · rw [if_pos hs] at h
          simp only [except_pure_eq, except_bind_ok] at h
          cases hrec : projBulletLoop cv name d i (j + 1) rest with
          | error e => rw [hrec] at h; exact Except.noConfusion h
          | ok cs' =>
            rw [hrec] at h
            simp only [except_bind_ok] at h
            rw [← Except.ok.inj h]
            intro c hc
            simp only [List.nil_append] at hc
            exact ih (j + 1) cs' hrec c hc
        · rw [if_neg hs] at h
          simp only [except_pure_eq, except_bind_ok] at h
          cases hrec : projBulletLoop cv name d i (j + 1) rest with
          | error e => rw [hrec] at h; exact Except.noConfusion h
          | ok cs' =>
            rw [hrec] at h
            simp only [except_bind_ok] at h
            rw [← Except.ok.inj h]
            intro c hc
            rcases List.mem_cons.mp hc with rfl | hc'
            · show pyStrip (pyStr name ++ " - " ++ pyStrip s) ≠ ""
              exact pyStrip_ne_of_hasInk
                (hasInk_append_left _ (hasInk_append_right _ (by decide)))
            · exact ih (j + 1) cs' hrec c hc'
    | jnull =>
      rw [projBulletLoop.eq_def] at h
      dsimp only at h
      case _ =>
        by_cases htb : truthy Jv.jnull = false
        · rw [if_pos htb] at h
          simp only [except_pure_eq, except_bind_ok] at h
          cases hrec : projBulletLoop cv name d i (j + 1) rest with
          | error e => rw [hrec] at h; exact Except.noConfusion h
          | ok cs' =>
            rw [hrec] at h
            simp only [except_bind_ok] at h
            rw [← Except.ok.inj h]
            intro c hc
            simp only [List.nil_append] at hc
            exact ih (j + 1) cs' hrec c hc
        · rw [if_neg htb] at h
          simp only [except_bind_err] at h
          exact Except.noConfusion h
    | jbool bb =>
      rw [projBulletLoop.eq_def] at h
      dsimp only at h
      case _ =>
        by_cases htb : truthy (Jv.jbool bb) = false
        · rw [if_pos htb] at h
          simp only [except_pure_eq, except_bind_ok] at h
          cases hrec : projBulletLoop cv name d i (j + 1) rest with
          | error e => rw [hrec] at h; exact Except.noConfusion h
          | ok cs' =>
            rw [hrec] at h
            simp only [except_bind_ok] at h
            rw [← Except.ok.inj h]
            intro c hc
            simp only [List.nil_append] at hc
            exact ih (j + 1) cs' hrec c hc
        · rw [if_neg htb] at h
          simp only [except_bind_err] at h
          exact Except.noConfusion h
    | jnum n =>
      rw [projBulletLoop.eq_def] at h
      dsimp only at h
      case _ =>
        by_cases htb : truthy (Jv.jnum n) = false
        · rw [if_pos htb] at h
          simp only [except_pure_eq, except_bind_ok] at h
          cases hrec : projBulletLoop cv name d i (j + 1) rest with
          | error e => rw [hrec] at h; exact Except.noConfusion h
          | ok cs' =>
            rw [hrec] at h
            simp only [except_bind_ok] at h
            rw [← Except.ok.inj h]
            intro c hc
            simp only [List.nil_append] at hc
            exact ih (j + 1) cs' hrec c hc
        · rw [if_neg htb] at h
          simp only [except_bind_err] at h
          exact Except.noConfusion h
    | jlist l =>
      rw [projBulletLoop.eq_def] at h
      dsimp only at h
      case _ =>
        by_cases htb : truthy (Jv.jlist l) = false
        · rw [if_pos htb] at h
          simp only [except_pure_eq, except_bind_ok] at h
          cases hrec : projBulletLoop cv name d i (j + 1) rest with
          | error e => rw [hrec] at h; exact Except.noConfusion h
          | ok cs' =>
            rw [hrec] at h
            simp only [except_bind_ok] at h
            rw [← Except.ok.inj h]
            intro c hc
            simp only [List.nil_append] at hc
            exact ih (j + 1) cs' hrec c hc
        · rw [if_neg htb] at h
          simp only [except_bind_err] at h
          exact Except.noConfusion h
    | jdict dd =>
      rw [projBulletLoop.eq_def] at h
      dsimp only at h
      case _ =>
        by_cases htb : truthy (Jv.jdict dd) = false
        · rw [if_pos htb] at h
          simp only [except_pure_eq, except_bind_ok] at h
          cases hrec : projBulletLoop cv name d i (j + 1) rest with
          | error e => rw [hrec] at h; exact Except.noConfusion h
          | ok cs' =>
            rw [hrec] at h
            simp only [except_bind_ok] at h
            rw [← Except.ok.inj h]
            intro c hc
            simp only [List.nil_append] at hc
            exact ih (j + 1) cs' hrec c hc
        · rw [if_neg htb] at h
          simp only [except_bind_err] at h
          exact Except.noConfusion h


/-- Every chunk of the experience bullet chunker has content after
trimming. -/
theorem expEntryLoop_ink {cv : String} : ∀ (es : List Jv) (i : Nat)
    (cs : List Chunk), expEntryLoop cv i es = .ok cs →
    ∀ c ∈ cs, pyStrip c.text ≠ "" := by
  intro es
  induction es with
  | nil =>
    intro i cs h
    rw [← Except.ok.inj h]
    intro c hc
    cases hc
  | cons e rest ih =>
    intro i cs h
    rw [expEntryLoop] at h
    cases hd : asDict e with
    | error er => rw [hd] at h; exact Except.noConfusion h
    | ok d =>
      rw [hd] at h
      simp only [except_bind_ok] at h
      cases hit : pyIter (dictGetD d "bullets" (.jlist [])) with
      | error er => rw [hit] at h; exact Except.noConfusion h
      | ok bs =>
        rw [hit] at h
        simp only [except_bind_ok] at h
        cases hbl : expBulletLoop cv (dictGetD d "company" (.jstr ""))
            (dictGetD d "title" (.jstr "")) d i 0 bs with
        | error er => rw [hbl] at h; exact Except.noConfusion h
        | ok here =>
          rw [hbl] at h
          simp only [except_bind_ok] at h
          cases hrec : expEntryLoop cv (i + 1) rest with
          | error er => rw [hrec] at h; exact Except.noConfusion h
          | ok there =>
            rw [hrec] at h
            simp only [except_bind_ok] at h
            rw [← Except.ok.inj h]
            intro c hc
            rcases List.mem_append.mp hc with hc' | hc'
            · exact expBulletLoop_ink bs 0 here hbl c hc'
            · exact ih (i + 1) there hrec c hc'

/-- Every chunk of `chunk_experience_bullets` has content after
trimming. -/
theorem chunk_experience_bullets_ink {cv : String} {v : Jv} {cs : List Chunk}
    (h : chunk_experience_bullets v cv = .ok cs) :
    ∀ c ∈ cs, pyStrip c.text ≠ "" := by
  unfold chunk_experience_bullets at h
  cases hit : pyIter v with
  | error er => rw [hit] at h; exact Except.noConfusion h
  | ok es =>
    rw [hit] at h
    simp only [except_bind_ok] at h
    exact expEntryLoop_ink es 0 cs h

/-- Every chunk of the projects bullet chunker has content after
trimming. -/
theorem projEntryLoop_ink {cv : String} : ∀ (es : List Jv) (i : Nat)
    (cs : List Chunk), projEntryLoop cv i es = .ok cs →
    ∀ c ∈ cs, pyStrip c.text ≠ "" := by
  intro es
  induction es with
  | nil =>
    intro i cs h
    rw [← Except.ok.inj h]
    intro c hc
    cases hc
  | cons e rest ih =>
    intro i cs h
    rw [projEntryLoop] at h
    cases hd : asDict e with
    | error er => rw [hd] at h; exact Except.noConfusion h
    | ok d =>
      rw [hd] at h
      simp only [except_bind_ok] at h
      by_cases hbt : truthy (dictGetD d "bullets" (.jlist [])) = true
      · rw [if_pos hbt] at h
        cases hit : pyIter (dictGetD d "bullets" (.jlist [])) with
        | error er => rw [hit] at h; exact Except.noConfusion h
        | ok bs =>
          rw [hit] at h
          simp only [except_bind_ok] at h
          cases hbl : projBulletLoop cv (dictGetD d "name" (.jstr "")) d i 0 bs with
          | error er => rw [hbl] at h; exact Except.noConfusion h
          | ok here =>
            rw [hbl] at h
            simp only [except_bind_ok] at h
            cases hrec : projEntryLoop cv (i + 1) rest with
            | error er => rw [hrec] at h; exact Except.noConfusion h
            | ok there =>
              rw [hrec] at h
              simp only [except_bind_ok] at h
              rw [← Except.ok.inj h]
              intro c hc
              rcases List.mem_append.mp hc with hc' | hc'
              · exact projBulletLoop_ink bs 0 here hbl c hc'
              · exact ih (i + 1) there hrec c hc'
      · rw [if_neg hbt] at h
        by_cases hdt : truthy (dictGetD d "description" (.jstr "")) = false
        · rw [if_pos hdt] at h
          simp only [except_pure_eq, except_bind_ok] at h
          cases hrec : projEntryLoop cv (i + 1) rest with
          | error er => rw [hrec] at h; exact Except.noConfusion h
          | ok there =>
            rw [hrec] at h
            simp only [except_bind_ok] at h
            rw [← Except.ok.inj h]
            intro c hc
            simp only [List.nil_append] at hc
            exact ih (i + 1) there hrec c hc
        · rw [if_neg hdt] at h
          cases hdesc : dictGetD d "description" (.jstr "") with
          | jstr s =>
            rw [hdesc] at h
            dsimp only at h
            by_cases hs : pyStrip s = ""
            · rw [if_pos hs] at h
              simp only [except_pure_eq, except_bind_ok] at h
              cases hrec : projEntryLoop cv (i + 1) rest with
              | error er => rw [hrec] at h; exact Except.noConfusion h
              | ok there =>
                rw [hrec] at h
                simp only [except_bind_ok] at h
                rw [← Except.ok.inj h]
                intro c hc
                simp only [List.nil_append] at hc
                exact ih (i + 1) there hrec c hc
            · rw [if_neg hs] at h
              simp only [except_pure_eq, except_bind_ok] at h
              cases hrec : projEntryLoop cv (i + 1) rest with
              | error er => rw [hrec] at h; exact Except.noConfusion h
              | ok there =>
                rw [hrec] at h
                simp only [except_bind_ok] at h
                rw [← Except.ok.inj h]
                intro c hc
                rcases List.mem_cons.mp hc with rfl | hc'
                · show pyStrip (pyStr (dictGetD d "name" (.jstr "")) ++ " - " ++ pyStrip s) ≠ ""
                  exact pyStrip_ne_of_hasInk
                    (hasInk_append_left _ (hasInk_append_right _ (by decide)))
                · exact ih (i + 1) there hrec c hc'
          | jnull => rw [hdesc] at h; dsimp only at h; exact Except.noConfusion h
          | jbool bb => rw [hdesc] at h; dsimp only at h; exact Except.noConfusion h
          | jnum n => rw [hdesc] at h; dsimp only at h; exact Except.noConfusion h
          | jlist l => rw [hdesc] at h; dsimp only at h; exact Except.noConfusion h
          | jdict dd => rw [hdesc] at h; dsimp only at h; exact Except.noConfusion h

/-- Every chunk of `chunk_projects_bullets` has content after trimming. -/
theorem chunk_projects_bullets_ink {cv : String} {v : Jv} {cs : List Chunk}
    (h : chunk_projects_bullets v cv = .ok cs) :
    ∀ c ∈ cs, pyStrip c.text ≠ "" := by
  unfold chunk_projects_bullets at h
  cases hit : pyIter v with
  | error er => rw [hit] at h; exact Except.noConfusion h
  | ok es =>
    rw [hit] at h
    simp only [except_bind_ok] at h
    exact projEntryLoop_ink es 0 cs h

/-- C3 (counterexample).  A skills section whose category list holds the
empty string makes the chunker emit a chunk with empty text: the category
list `[""]` is truthy, so `skill_parts` is non-empty, and joining yields
`""`. -/
theorem skills_empty_chunk_cex :
    chunk_structured_sections
        [("skills", .jdict [("languages", .jlist [.jstr ""])])] "cv1" =
      .ok [⟨"cv1", "skills", "",
        [("type", .jstr "skills"), ("categories", .jlist [.jstr "languages"])]⟩] ∧
    pyStrip "" = "" := ⟨rfl, rfl⟩

/-- C3 (amended).  Every chunk the full chunker (generic pass plus both
bullet passes) emits has non-empty text after trimming, provided (i) every
element of every skills category list is a string with content after
trimming, and (ii) no string anywhere in the section values is
whitespace-only.  Without (i) the skills join can yield an empty or
whitespace-only chunk (see the counterexample) and without (ii) a
list-of-object section such as education can emit a whitespace-only chunk
(e.g. `institution = " "`). -/
theorem chunker_no_empty_chunks_amended (sections : List (String × Jv))
    (cv : String) (cs : List Chunk)
    (hsk : skillsOk sections = true)
    (hws : sections.all (fun nv => wsClean nv.2) = true)
    (hok : allChunksOf sections cv = .ok cs) :
    ∀ c ∈ cs, pyStrip c.text ≠ "" := by
  unfold allChunksOf at hok
  cases hbase : chunk_structured_sections sections cv with
  | error e => rw [hbase] at hok; exact Except.noConfusion hok
  | ok base =>
    rw [hbase] at hok
    simp only [except_bind_ok] at hok
    cases hexp : chunk_experience_bullets
        (pyOr (dictGetD sections "experience" (.jlist [])) (.jlist [])) cv with
    | error e => rw [hexp] at hok; exact Except.noConfusion hok
    | ok expChunks =>
      rw [hexp] at hok
      simp only [except_bind_ok] at hok
      cases hproj : chunk_projects_bullets
          (pyOr (dictGetD sections "projects" (.jlist [])) (.jlist [])) cv with
      | error e => rw [hproj] at hok; exact Except.noConfusion hok
      | ok projChunks =>
        rw [hproj] at hok
        simp only [except_bind_ok] at hok
        rw [← Except.ok.inj hok]
        intro c hc
        rcases List.mem_append.mp hc with hc' | hc'
        · rcases List.mem_append.mp hc' with hc'' | hc''
          · exact chunk_structured_sections_ink sections base
              (List.all_eq_true.mp hws) hsk hbase c hc''
          · exact chunk_experience_bullets_ink hexp c hc''
        · exact chunk_projects_bullets_ink hproj c hc'

/-- Witness for C3's amended theorem at a concrete record satisfying both
hypotheses. -/
theorem chunker_no_empty_chunks_amended_witness :
    skillsOk [("summary", .jdict [("text", .jstr " Hi there ")]),
      ("skills", .jdict [("langs", .jlist [.jstr "Python"])])] = true ∧
    ([("summary", Jv.jdict [("text", Jv.jstr " Hi there ")]),
      ("skills", Jv.jdict [("langs", Jv.jlist [Jv.jstr "Python"])])].all
        (fun nv => wsClean nv.2)) = true ∧
    ∀ c ∈ [Chunk.mk "cv1" "summary" "Hi there" [("type", Jv.jstr "summary")],
      Chunk.mk "cv1" "skills" "Python"
        [("type", Jv.jstr "skills"),
         ("categories", Jv.jlist [Jv.jstr "langs"])]],
      pyStrip c.text ≠ "" :=
  ⟨rfl, rfl,
   chunker_no_empty_chunks_amended
     [("summary", .jdict [("text", .jstr " Hi there ")]),
      ("skills", .jdict [("langs", .jlist [.jstr "Python"])])] "cv1" _ rfl rfl rfl⟩

/-! ### Vector ids and re-indexing idempotence (claim C6) -/

/-- The batch embed is a map over the chunk list. -/
theorem embed_chunks_map (f : String → List Int) (cs : List Chunk) :
    embed_chunks f cs = cs.map (fun c => ⟨c, f c.text⟩) := by
  cases cs <;> rfl

/-- The ids of the built vectors follow the deterministic id scheme:
record id, section, ordinal position, and nothing else. -/
theorem buildVectorsFrom_ids (cv : String) (f : String → List Int) :
    ∀ (cs : List Chunk) (k : Nat),
    (buildVectorsFrom cv k (cs.map (fun c => ⟨c, f c.text⟩))).map (fun v => v.id) =
      idSeq cv k cs := by
  intro cs
  induction cs with
  | nil => intro k; rfl
  | cons c rest ih =>
    intro k
    simp only [List.map_cons, buildVectorsFrom, idSeq]
    rw [ih (k + 1)]
    rfl

/-- Upserting a vector whose id is already present does not change the id
multiset (the entry is replaced in place). -/
theorem backendIds_upsertOne_mem {B : List PVector} {v : PVector}
    (h : v.id ∈ backendIds B) : backendIds (upsertOne B v) = backendIds B := by
  induction B with
  | nil => cases h
  | cons w B' ih =>
    rw [upsertOne]
    by_cases hw : w.id = v.id
    · rw [if_pos hw]
      show v.id :: backendIds B' = w.id :: backendIds B'
      rw [hw]
    · rw [if_neg hw]
      show w.id :: backendIds (upsertOne B' v) = w.id :: backendIds B'
      have h' : v.id ∈ backendIds B' := by
        rcases List.mem_cons.mp h with h1 | h1
        · exact absurd h1.symm hw
        · exact h1
      rw [ih h']

/-- After an upsert the vector's id is present. -/
theorem mem_backendIds_upsertOne_self (B : List PVector) (v : PVector) :
    v.id ∈ backendIds (upsertOne B v) := by
  induction B with
  | nil => exact List.mem_cons_self _ _
  | cons w B' ih =>
    rw [upsertOne]
    by_cases hw : w.id = v.id
    · rw [if_pos hw]
      exact List.mem_cons_self _ _
    · rw [if_neg hw]
      show v.id ∈ w.id :: backendIds (upsertOne B' v)
      exact List.mem_cons_of_mem _ ih

/-- An upsert preserves the ids already present. -/
theorem mem_backendIds_upsertOne_of_mem {B : List PVector} {x : String}
    (v : PVector) (h : x ∈ backendIds B) :
    x ∈ backendIds (upsertOne B v) := by
  induction B with
  | nil => cases h
  | cons w B' ih =>
    rw [upsertOne]
    by_cases hw : w.id = v.id
    · rw [if_pos hw]
      rcases List.mem_cons.mp h with h1 | h1
      · show x ∈ v.id :: backendIds B'
        rw [← hw]
        exact List.mem_cons.mpr (Or.inl h1)
      · exact List.mem_cons_of_mem _ h1
    · rw [if_neg hw]
      rcases List.mem_cons.mp h with h1 | h1
      · rw [h1]
        exact List.mem_cons_self _ _
      · show x ∈ w.id :: backendIds (upsertOne B' v)
        exact List.mem_cons_of_mem _ (ih h1)

/-- A batch upsert preserves the ids already present. -/
theorem mem_backendIds_upsertAll_of_mem {x : String} :
    ∀ (vs : List PVector) (B : List PVector), x ∈ backendIds B →
    x ∈ backendIds (upsertAll B vs) := by
  intro vs
  induction vs with
  | nil => intro B h; exact h
  | cons v rest ih =>
    intro B h
    exact ih (upsertOne B v) (mem_backendIds_upsertOne_of_mem v h)

/-- After a batch upsert every upserted id is present. -/
theorem mem_backendIds_upsertAll {v : PVector} :
    ∀ (vs : List PVector) (B : List PVector), v ∈ vs →
    v.id ∈ backendIds (upsertAll B vs) := by
  intro vs
  induction vs with
  | nil => intro B h; cases h
  | cons w rest ih =>
    intro B h
    rcases List.mem_cons.mp h with rfl | h1
    · exact mem_backendIds_upsertAll_of_mem rest _
        (mem_backendIds_upsertOne_self B v)
    · exact ih _ h1

/-- A batch upsert whose ids are all already present leaves the backend's
id sequence unchanged. -/
theorem backendIds_upsertAll_of_all_mem :
    ∀ (vs : List PVector) (B : List PVector),
    (∀ v ∈ vs, v.id ∈ backendIds B) →
    backendIds (upsertAll B vs) = backendIds B := by
  intro vs
  induction vs with
  | nil => intro B _; rfl
  | cons v rest ih =>
    intro B h
    have h1 : backendIds (upsertOne B v) = backendIds B :=
      backendIds_upsertOne_mem (h v (List.mem_cons_self _ _))
    have h2 : ∀ w ∈ rest, w.id ∈ backendIds (upsertOne B v) := by
      intro w hw
      rw [h1]
      exact h w (List.mem_cons_of_mem _ hw)
    show backendIds (upsertAll (upsertOne B v) rest) = backendIds B
    rw [ih (upsertOne B v) h2, h1]

/-- C6.  The vector id of each chunk is the deterministic string built
only from the record id, the chunk's section, and the chunk's ordinal
position in the full chunk sequence (`idSeq`); and because the backend
write is an upsert (insert-or-replace keyed by id), running the
chunk → embed → upsert pipeline a second time for the same record leaves
the backend's id sequence — and hence its per-record vector count —
unchanged. -/
theorem vector_id_reindexing_idempotent (sections : List (String × Jv))
    (cv : String) (f : String → List Int) (B : List PVector) (cs : List Chunk)
    (_hok : allChunksOf sections cv = .ok cs) :
    ((buildVectors cv (embed_chunks f cs)).map (fun v => v.id) = idSeq cv 0 cs) ∧
    backendIds (upsertAll (upsertAll B (buildVectors cv (embed_chunks f cs)))
        (buildVectors cv (embed_chunks f cs))) =
      backendIds (upsertAll B (buildVectors cv (embed_chunks f cs))) ∧
    recordCount (upsertAll (upsertAll B (buildVectors cv (embed_chunks f cs)))
        (buildVectors cv (embed_chunks f cs))) cv =
      recordCount (upsertAll B (buildVectors cv (embed_chunks f cs))) cv := by
  have hids : backendIds (upsertAll (upsertAll B (buildVectors cv (embed_chunks f cs)))
      (buildVectors cv (embed_chunks f cs))) =
      backendIds (upsertAll B (buildVectors cv (embed_chunks f cs))) :=
    backendIds_upsertAll_of_all_mem _ _
      (fun v hv => mem_backendIds_upsertAll _ _ hv)
  refine ⟨?_, hids, ?_⟩
  · rw [embed_chunks_map]
    exact buildVectorsFrom_ids cv f cs 0
  · unfold recordCount
    rw [hids]

/-- Witness for C6 at a concrete record, backend and encoder. -/
theorem vector_id_reindexing_idempotent_witness :
    allChunksOf [("summary", .jdict [("text", .jstr "Builds systems")])] "r1" =
      .ok [Chunk.mk "r1" "summary" "Builds systems" [("type", Jv.jstr "summary")]] ∧
    (((buildVectors "r1" (embed_chunks (fun _ => [1])
        [Chunk.mk "r1" "summary" "Builds systems" [("type", Jv.jstr "summary")]])).map
          (fun v => v.id) =
      idSeq "r1" 0 [Chunk.mk "r1" "summary" "Builds systems" [("type", Jv.jstr "summary")]]) ∧
    backendIds (upsertAll (upsertAll [] (buildVectors "r1" (embed_chunks (fun _ => [1])
        [Chunk.mk "r1" "summary" "Builds systems" [("type", Jv.jstr "summary")]])))
        (buildVectors "r1" (embed_chunks (fun _ => [1])
        [Chunk.mk "r1" "summary" "Builds systems" [("type", Jv.jstr "summary")]]))) =
      backendIds (upsertAll [] (buildVectors "r1" (embed_chunks (fun _ => [1])
        [Chunk.mk "r1" "summary" "Builds systems" [("type", Jv.jstr "summary")]]))) ∧
    recordCount (upsertAll (upsertAll [] (buildVectors "r1" (embed_chunks (fun _ => [1])
        [Chunk.mk "r1" "summary" "Builds systems" [("type", Jv.jstr "summary")]])))
        (buildVectors "r1" (embed_chunks (fun _ => [1])
        [Chunk.mk "r1" "summary" "Builds systems" [("type", Jv.jstr "summary")]]))) "r1" =
      recordCount (upsertAll [] (buildVectors "r1" (embed_chunks (fun _ => [1])
        [Chunk.mk "r1" "summary" "Builds systems" [("type", Jv.jstr "summary")]]))) "r1") :=
  ⟨rfl, vector_id_reindexing_idempotent
    [("summary", .jdict [("text", .jstr "Builds systems")])] "r1"
    (fun _ => [1]) [] _ rfl⟩

/-! ### Final metadata and sanitization (claim C7) -/

/-- The keys of a dict, in order. -/
def dictKeys (d : List (String × Jv)) : List String := d.map (fun kv => kv.1)

/-- Setting a key makes it retrievable. -/
theorem dictGet_dictSet_self (d : List (String × Jv)) (k : String) (v : Jv) :
    dictGet (dictSet d k v) k = some v := by
  induction d with
  | nil => simp [dictSet, dictGet]
  | cons kv rest ih =>
    rw [dictSet]
    by_cases hk : kv.1 = k
    · rw [if_pos hk]
      simp [dictGet]
    · rw [if_neg hk]
      rw [dictGet, if_neg hk]
      exact ih

/-- Setting one key leaves other keys unchanged. -/
theorem dictGet_dictSet_ne (d : List (String × Jv)) {k k' : String} (v : Jv)
    (h : k' ≠ k) : dictGet (dictSet d k v) k' = dictGet d k' := by
  induction d with
  | nil =>
    show (if k = k' then some v else dictGet [] k') = dictGet [] k'
    rw [if_neg (fun he => h he.symm)]
  | cons kv rest ih =>
    rw [dictSet]
    by_cases hk : kv.1 = k
    · rw [if_pos hk]
      rw [dictGet, dictGet, if_neg (fun he => h he.symm),
        if_neg (fun he => h (hk.symm.trans he).symm)]
    · rw [if_neg hk]
      rw [dictGet, dictGet]
      by_cases hk2 : kv.1 = k'
      · rw [if_pos hk2, if_pos hk2]
      · rw [if_neg hk2, if_neg hk2]
        exact ih

/-- Keys not present look up to `none`. -/
theorem dictGet_eq_none_of_not_mem {d : List (String × Jv)} {k : String}
    (h : k ∉ dictKeys d) : dictGet d k = none := by
  induction d with
  | nil => rfl
  | cons kv rest ih =>
    rw [dictGet, if_neg, ih]
    · intro hmem
      exact h (List.mem_cons_of_mem _ hmem)
    · intro he
      apply h
      show k ∈ kv.1 :: dictKeys rest
      rw [he]
      exact List.mem_cons_self _ _

/-- Present keys look up to something. -/
theorem dictGet_isSome_of_mem {d : List (String × Jv)} {k : String}
    (h : k ∈ dictKeys d) : (dictGet d k).isSome = true := by
  induction d with
  | nil => cases h
  | cons kv rest ih =>
    rw [dictGet]
    by_cases hk : kv.1 = k
    · rw [if_pos hk]; rfl
    · rw [if_neg hk]
      rcases List.mem_cons.mp h with h1 | h1
      · exact absurd h1.symm hk
      · exact ih h1

/-- Updating with an absent key falls back to the base dict. -/
theorem dictGet_dictUpdate_none {k : String} :
    ∀ (upd base : List (String × Jv)), dictGet upd k = none →
    dictGet (dictUpdate base upd) k = dictGet base k := by
  intro upd
  induction upd with
  | nil => intro base _; rfl
  | cons kv rest ih =>
    intro base h
    rw [dictGet] at h
    by_cases hk : kv.1 = k
    · rw [if_pos hk] at h; exact Option.noConfusion h
    · rw [if_neg hk] at h
      show dictGet (dictUpdate (dictSet base kv.1 kv.2) rest) k = dictGet base k
      rw [ih _ h, dictGet_dictSet_ne _ _ (fun he => hk he.symm)]

/-- Updating with a present key (keys of the update distinct) retrieves the
updated value. -/
theorem dictGet_dictUpdate_some {k : String} {v : Jv} :
    ∀ (upd base : List (String × Jv)), (dictKeys upd).Nodup →
    dictGet upd k = some v →
    dictGet (dictUpdate base upd) k = some v := by
  intro upd
  induction upd with
  | nil => intro base _ h; exact Option.noConfusion h
  | cons kv rest ih =>
    intro base hnd h
    have hnd' := List.nodup_cons.mp hnd
    rw [dictGet] at h
    by_cases hk : kv.1 = k
    · rw [if_pos hk] at h
      have hrest : dictGet rest k = none := by
        apply dictGet_eq_none_of_not_mem
        rw [← hk]
        exact hnd'.1
      show dictGet (dictUpdate (dictSet base kv.1 kv.2) rest) k = some v
      rw [dictGet_dictUpdate_none rest _ hrest, hk, dictGet_dictSet_self,
        Option.some.inj h]
    · rw [if_neg hk] at h
      show dictGet (dictUpdate (dictSet base kv.1 kv.2) rest) k = some v
      exact ih _ hnd'.2 h

/-- Keys of the sanitized metadata form a sublist of the original keys. -/
theorem dictKeys_sanitizeMeta_sublist (m : List (String × Jv)) :
    (dictKeys (sanitizeMeta m)).Sublist (dictKeys m) := by
  induction m with
  | nil => exact List.Sublist.refl _
  | cons kv rest ih =>
    show (dictKeys (sanitizeMeta (kv :: rest))).Sublist (kv.1 :: dictKeys rest)
    rw [sanitizeMeta, List.filterMap_cons]
    cases hs : sanitizeVal kv.2 with
    | none =>
      exact List.Sublist.cons _ ih
    | some w =>
      exact List.Sublist.cons₂ _ ih

/-- Sanitization looks up as the sanitization of the original lookup, for
duplicate-free metadata. -/
theorem dictGet_sanitizeMeta {k : String} :
    ∀ (m : List (String × Jv)), (dictKeys m).Nodup →
    dictGet (sanitizeMeta m) k = (dictGet m k).bind sanitizeVal := by
  intro m
  induction m with
  | nil => intro _; rfl
  | cons kv rest ih =>
    intro hnd
    have hnd' := List.nodup_cons.mp hnd
    cases hs : sanitizeVal kv.2 with
    | none =>
      have hstep : sanitizeMeta (kv :: rest) = sanitizeMeta rest := by
        rw [sanitizeMeta, List.filterMap_cons, hs]
        rfl
      rw [hstep]
      by_cases hk : kv.1 = k
      · have hR : (dictGet (kv :: rest) k).bind sanitizeVal = none := by
          rw [dictGet, if_pos hk]
          exact hs
        rw [hR, ih hnd'.2]
        have hget : dictGet rest k = none := by
          apply dictGet_eq_none_of_not_mem
          rw [← hk]
          exact hnd'.1
        rw [hget]
        rfl
      · have hR : (dictGet (kv :: rest) k).bind sanitizeVal =
            (dictGet rest k).bind sanitizeVal := by
          rw [dictGet, if_neg hk]
        rw [hR]
        exact ih hnd'.2
    | some w =>
      have hstep : sanitizeMeta (kv :: rest) = (kv.1, w) :: sanitizeMeta rest := by
        rw [sanitizeMeta, List.filterMap_cons, hs]
        rfl
      rw [hstep]
      by_cases hk : kv.1 = k
      · have hL : dictGet ((kv.1, w) :: sanitizeMeta rest) k = some w := by
          rw [dictGet, if_pos hk]
        have hR : (dictGet (kv :: rest) k).bind sanitizeVal = sanitizeVal kv.2 := by
          rw [dictGet, if_pos hk]
          rfl
        rw [hL, hR, hs]
      · have hL : dictGet ((kv.1, w) :: sanitizeMeta rest) k =
            dictGet (sanitizeMeta rest) k := by
          rw [dictGet, if_neg hk]
        have hR : (dictGet (kv :: rest) k).bind sanitizeVal =
            (dictGet rest k).bind sanitizeVal := by
          rw [dictGet, if_neg hk]
        rw [hL, hR]
        exact ih hnd'.2

/-- Lookup in an appended dict searches the left part first. -/
theorem dictGet_append_none {a : List (String × Jv)} (b : List (String × Jv))
    {k : String} (h : dictGet a k = none) :
    dictGet (a ++ b) k = dictGet b k := by
  induction a with
  | nil => rfl
  | cons kv rest ih =>
    rw [dictGet] at h
    rw [List.cons_append, dictGet]
    by_cases hk : kv.1 = k
    · rw [if_pos hk] at h
      exact Option.noConfusion h
    · rw [if_neg hk] at h
      rw [if_neg hk]
      exact ih h

/-- Lookup in an appended dict returns a hit from the left part. -/
theorem dictGet_append_some {a : List (String × Jv)} (b : List (String × Jv))
    {k : String} {v : Jv} (h : dictGet a k = some v) :
    dictGet (a ++ b) k = some v := by
  induction a with
  | nil => exact Option.noConfusion h
  | cons kv rest ih =>
    rw [dictGet] at h
    rw [List.cons_append, dictGet]
    by_cases hk : kv.1 = k
    · rw [if_pos hk] at h
      rw [if_pos hk]
      exact h
    · rw [if_neg hk] at h
      rw [if_neg hk]
      exact ih h

/-- Looking up a key other than `"source"` in the source-tagged metadata is
looking it up in the original metadata. -/
theorem dictGet_ensureSource {m : List (String × Jv)} {k : String}
    (h : k ≠ "source") : dictGet (ensureSource m) k = dictGet m k := by
  unfold ensureSource
  cases hg : dictGet m "source" with
  | some w => rfl
  | none =>
    cases hk : dictGet m k with
    | some v => exact dictGet_append_some _ hk
    | none =>
      rw [dictGet_append_none _ hk]
      show (if "source" = k then some (Jv.jstr "dataset") else none) = none
      rw [if_neg (fun he => h he.symm)]

/-- Tagging the source keeps the keys duplicate-free. -/
theorem ensureSource_keys_nodup {m : List (String × Jv)}
    (h : (dictKeys m).Nodup) : (dictKeys (ensureSource m)).Nodup := by
  unfold ensureSource
  cases hg : dictGet m "source" with
  | some w => exact h
  | none =>
    have hns : "source" ∉ dictKeys m := by
      intro hmem
      have := dictGet_isSome_of_mem hmem
      rw [hg] at this
      exact Bool.noConfusion this
    rw [dictKeys, List.map_append]
    rw [List.nodup_append]
    refine ⟨h, List.nodup_singleton _, ?_⟩
    intro a ha hb
    simp only [List.map_cons, List.map_nil, List.mem_singleton] at hb
    rw [hb] at ha
    exact hns ha

/-- Tagging the source introduces no key other than `"source"`. -/
theorem not_mem_ensureSource_keys {m : List (String × Jv)} {k : String}
    (hk : k ∉ dictKeys m) (hs : k ≠ "source") :
    k ∉ dictKeys (ensureSource m) := by
  unfold ensureSource
  cases dictGet m "source" with
  | some w => exact hk
  | none =>
    intro hmem
    rw [dictKeys, List.map_append] at hmem
    rcases List.mem_append.mp hmem with h1 | h1
    · exact hk h1
    · simp only [List.map_cons, List.map_nil, List.mem_singleton] at h1
      exact hs h1

/-- Every vector built by the pipeline carries the final metadata of its
chunk. -/
theorem mem_buildVectorsFrom_metadata {cv : String} :
    ∀ (es : List EChunk) (k : Nat) (v : PVector),
    v ∈ buildVectorsFrom cv k es → ∃ e ∈ es, v.metadata = finalMeta cv e.chunk := by
  intro es
  induction es with
  | nil => intro k v hv; cases hv
  | cons e rest ih =>
    intro k v hv
    rcases List.mem_cons.mp hv with rfl | hv'
    · exact ⟨e, List.mem_cons_self _ _, rfl⟩
    · obtain ⟨e', he', hm⟩ := ih (k + 1) v hv'
      exact ⟨e', List.mem_cons_of_mem _ he', hm⟩

/-- C7 (counterexample).  A chunk whose own metadata carries a `raw_text`
key — here an education object with a `raw_text` field — overrides the
reserved key: the metadata sent to the backend maps `raw_text` to the
object's field value `"oops"`, not to the chunk's text `"MIT"`, so the
original text is not recoverable from the hit. -/
theorem reserved_key_override_cex :
    allChunksOf
        [("education", .jlist [.jdict [("institution", .jstr "MIT"),
          ("raw_text", .jstr "oops")]])] "cv1" =
      .ok [Chunk.mk "cv1" "education" "MIT"
        [("type", .jstr "object"), ("index", .jnum 0),
         ("institution", .jstr "MIT"), ("raw_text", .jstr "oops")]] ∧
    (buildVectors "cv1" (embed_chunks (fun _ => [])
        [Chunk.mk "cv1" "education" "MIT"
          [("type", .jstr "object"), ("index", .jnum 0),
           ("institution", .jstr "MIT"), ("raw_text", .jstr "oops")]])).map
        (fun v => dictGet v.metadata "raw_text") = [some (Jv.jstr "oops")] ∧
    (Chunk.mk "cv1" "education" "MIT"
        [("type", .jstr "object"), ("index", .jnum 0),
         ("institution", .jstr "MIT"), ("raw_text", .jstr "oops")]).text = "MIT" ∧
    ("MIT" : String) ≠ "oops" := ⟨rfl, rfl, rfl, by decide⟩

/-- C7 (amended).  The metadata sent to the backend is the three reserved
entries (`cv_id`, `section`, `raw_text` holding the chunk's text) updated
by the sanitization of the chunk's metadata (tagged with
`source = "dataset"` when absent): `None` values are dropped,
strings/numbers/booleans pass through, lists are coerced to lists of
strings with `None` elements dropped, and any other composite value is
stringified.  Because the sanitized entries are applied on top of the
reserved ones, a chunk-metadata key equal to a reserved key overrides it;
whenever the chunk's metadata contains none of the reserved keys (and its
keys are duplicate-free), the final metadata holds the record id, the
section, and the raw chunk text under the reserved keys. -/
theorem upsert_metadata_sanitization_amended (cv : String) (c : Chunk)
    (hnodup : (dictKeys c.metadata).Nodup)
    (hc1 : "cv_id" ∉ dictKeys c.metadata)
    (hc2 : "section" ∉ dictKeys c.metadata)
    (hc3 : "raw_text" ∉ dictKeys c.metadata) :
    dictGet (finalMeta cv c) "cv_id" = some (.jstr cv) ∧
    dictGet (finalMeta cv c) "section" = some (.jstr c.sectionName) ∧
    dictGet (finalMeta cv c) "raw_text" = some (.jstr c.text) ∧
    (∀ k, k ≠ "cv_id" → k ≠ "section" → k ≠ "raw_text" →
      dictGet (finalMeta cv c) k =
        (dictGet (ensureSource c.metadata) k).bind sanitizeVal) ∧
    sanitizeVal .jnull = none ∧
    (∀ s, sanitizeVal (.jstr s) = some (.jstr s)) ∧
    (∀ n, sanitizeVal (.jnum n) = some (.jnum n)) ∧
    (∀ b, sanitizeVal (.jbool b) = some (.jbool b)) ∧
    (∀ xs, sanitizeVal (.jlist xs) = some (.jlist ((xs.filter (fun x =>
      match x with | .jnull => false | _ => true)).map (fun x => .jstr (pyStr x))))) ∧
    (∀ kvs, sanitizeVal (.jdict kvs) = some (.jstr (pyStr (.jdict kvs)))) ∧
    (∀ (es : List EChunk) (v : PVector), v ∈ buildVectors cv es →
      ∃ e ∈ es, v.metadata = finalMeta cv e.chunk) := by
  have hmnd : (dictKeys (ensureSource c.metadata)).Nodup :=
    ensureSource_keys_nodup hnodup
  have hcleannd : (dictKeys (sanitizeMeta (ensureSource c.metadata))).Nodup :=
    (dictKeys_sanitizeMeta_sublist _).nodup hmnd
  have hres : ∀ kr : String, kr ∉ dictKeys c.metadata → kr ≠ "source" →
      dictGet (sanitizeMeta (ensureSource c.metadata)) kr = none := by
    intro kr hkr hks
    rw [dictGet_sanitizeMeta _ hmnd,
      dictGet_eq_none_of_not_mem (not_mem_ensureSource_keys hkr hks)]
    rfl
  refine ⟨?_, ?_, ?_, ?_, rfl, fun s => rfl, fun n => rfl, fun b => rfl,
    fun xs => rfl, fun kvs => rfl, ?_⟩
  · rw [finalMeta, dictGet_dictUpdate_none _ _
      (hres "cv_id" hc1 (by decide))]
    rfl
  · rw [finalMeta, dictGet_dictUpdate_none _ _
      (hres "section" hc2 (by decide))]
    rfl
  · rw [finalMeta, dictGet_dictUpdate_none _ _
      (hres "raw_text" hc3 (by decide))]
    rfl
  · intro k hk1 hk2 hk3
    rw [finalMeta]
    rw [← dictGet_sanitizeMeta (ensureSource c.metadata) hmnd]
    cases hcl : dictGet (sanitizeMeta (ensureSource c.metadata)) k with
    | some v => exact dictGet_dictUpdate_some _ _ hcleannd hcl
    | none =>
      rw [dictGet_dictUpdate_none _ _ hcl]
      show (if "cv_id" = k then some (Jv.jstr cv)
        else if "section" = k then some (Jv.jstr c.sectionName)
        else if "raw_text" = k then some (Jv.jstr c.text)
        else none) = none
      rw [if_neg (fun he => hk1 he.symm), if_neg (fun he => hk2 he.symm),
        if_neg (fun he => hk3 he.symm)]
  · intro es v hv
    exact mem_buildVectorsFrom_metadata es 0 v hv

/-- Witness for C7's amended theorem at a concrete chunk without reserved
keys. -/
theorem upsert_metadata_sanitization_amended_witness :
    (dictKeys [("type", Jv.jstr "summary")]).Nodup ∧
    "cv_id" ∉ dictKeys [("type", Jv.jstr "summary")] ∧
    "section" ∉ dictKeys [("type", Jv.jstr "summary")] ∧
    "raw_text" ∉ dictKeys [("type", Jv.jstr "summary")] ∧
    dictGet (finalMeta "r1" (Chunk.mk "r1" "summary" "hello"
      [("type", Jv.jstr "summary")])) "cv_id" = some (Jv.jstr "r1") ∧
    dictGet (finalMeta "r1" (Chunk.mk "r1" "summary" "hello"
      [("type", Jv.jstr "summary")])) "raw_text" = some (Jv.jstr "hello") :=
  ⟨by decide, by decide, by decide, by decide,
   (upsert_metadata_sanitization_amended "r1"
     (Chunk.mk "r1" "summary" "hello" [("type", Jv.jstr "summary")])
     (by decide) (by decide) (by decide) (by decide)).1,
   ((upsert_metadata_sanitization_amended "r1"
     (Chunk.mk "r1" "summary" "hello" [("type", Jv.jstr "summary")])
     (by decide) (by decide) (by decide) (by decide)).2.2).1⟩

/-- Witness for C2's amended theorem at concrete experience and projects
entries. -/
theorem bullet_chunking_amended_witness :
    ∃ cs, chunk_experience_bullets
        (.jlist ([ExpEntry.mk "Acme" "Eng" "" "" "" ["Built X", " "] "ignored"].map
          ExpEntry.toJv)) "cv1" = .ok cs ∧
      cs.length = ([ExpEntry.mk "Acme" "Eng" "" "" "" ["Built X", " "] "ignored"].map
        (fun e => (e.bullets.filter trimNonempty).length)).sum ∧
      ∀ c ∈ cs, ∃ e ∈ [ExpEntry.mk "Acme" "Eng" "" "" "" ["Built X", " "] "ignored"],
        ∃ b ∈ e.bullets, c.text = e.company ++ " - " ++ pyStrip b :=
  (bullet_chunking_amended "cv1"
    [ExpEntry.mk "Acme" "Eng" "" "" "" ["Built X", " "] "ignored"] []).1
